import Mathlib

/-!
# Verification of the capyKEM ML-KEM implementation

A shallow embedding, in Lean 4, of the ML-KEM (FIPS 203) implementation found in
`src/src/fips203/{keygen,encrypt,decrypt}.rs` and `src/src/math/*.rs`, together with
theorems settling the frozen claims about it.

Conventions of the embedding:
* Rust machine integers (`u16`, `u32`, `u64`, `u128`) are modelled as `Nat`, with an
  explicit `% 2^w` inserted exactly where the Rust code performs a wrapping operation
  or a truncating `as` cast.
* Byte strings (`&[u8]`, `Vec<u8>`) are `List Nat` (each element intended `< 256`;
  the hypotheses of the theorems state this bound where it matters).
* Fallible Rust code (`Result`, plus slice-indexing panics) is modelled with `Except`:
  a distinguished `RtError.panic` marks an index-out-of-bounds abort, which in Rust
  terminates the process rather than returning an error.
* The SHA-3 family is an external dependency of the crate (the `sha3` crate) and is
  out of scope per the specification; it is modelled abstractly by a `Primitives`
  structure exposing the digest/XOF interfaces the code consumes, together with the
  digest-length guarantees those interfaces provide.
-/

set_option maxRecDepth 4000

namespace CapyKEM

/-! ## A balanced bounded-forall checker

`decide` on `∀ y < 2^11, P y` via `Nat.decidableBallLT` recurses linearly and
overflows the stack; this checker splits the range in halves, so kernel reduction
has logarithmic depth. -/

/-- Linear scan: `f` holds on `[lo, lo + n)`. Structural recursion on `n`. -/
def linearCheck (f : Nat → Bool) (lo : Nat) : Nat → Bool
  | 0 => true
  | n + 1 => f lo && linearCheck f (lo + 1) n

/-- Balanced scan with split depth `d`: `f` holds on `[lo, lo + n)`.
Structural recursion on `d`, so the kernel reduces it with logarithmic stack depth. -/
def ballCheckAux (f : Nat → Bool) : Nat → Nat → Nat → Bool
  | 0, lo, n => linearCheck f lo n
  | d + 1, lo, n =>
    if n ≤ 1 then linearCheck f lo n
    else ballCheckAux f d lo (n / 2) && ballCheckAux f d (lo + n / 2) (n - n / 2)

/-- `ballCheck f lo n = true` iff `f` holds on `[lo, lo + n)`. -/
def ballCheck (f : Nat → Bool) (lo n : Nat) : Bool := ballCheckAux f 64 lo n

theorem linearCheck_sound (f : Nat → Bool) :
    ∀ n lo, linearCheck f lo n = true → ∀ i, i < n → f (lo + i) = true := by
  intro n
  induction n with
  | zero => intro lo _ i hi; omega
  | succ m ih =>
    intro lo h i hi
    rw [linearCheck] at h
    have h1 := (Bool.and_eq_true _ _).mp h
    match i with
    | 0 => simpa using h1.1
    | j + 1 =>
      have := ih (lo + 1) h1.2 j (by omega)
      have harith : lo + 1 + j = lo + (j + 1) := by omega
      rwa [harith] at this

theorem ballCheckAux_sound (f : Nat → Bool) :
    ∀ d n lo, ballCheckAux f d lo n = true → ∀ i, i < n → f (lo + i) = true := by
  intro d
  induction d with
  | zero => intro n lo h i hi; exact linearCheck_sound f n lo h i hi
  | succ m ih =>
    intro n lo h i hi
    rw [ballCheckAux] at h
    by_cases hn : n ≤ 1
    · rw [if_pos hn] at h
      exact linearCheck_sound f n lo h i hi
    · rw [if_neg hn] at h
      have h1 := (Bool.and_eq_true _ _).mp h
      by_cases hc : i < n / 2
      · exact ih _ lo h1.1 i hc
      · have := ih _ (lo + n / 2) h1.2 (i - n / 2) (by omega)
        have harith : lo + n / 2 + (i - n / 2) = lo + i := by omega
        rwa [harith] at this

theorem ballCheck_sound (f : Nat → Bool) (n lo : Nat) (h : ballCheck f lo n = true) :
    ∀ i, i < n → f (lo + i) = true :=
  ballCheckAux_sound f 64 n lo h

/-! ## Abstract symmetric primitives

The crate calls four primitives: `Sha3_512` / `Sha3_256` digests and the
`Shake128` / `Shake256` XOFs (read as byte streams). They are external
collaborators, modelled by this structure. `shake128Stream x i` is the i-th byte of
the XOF stream after absorbing `x`, likewise `shake256Stream`. -/
structure Primitives where
  sha3_512 : List Nat → List Nat
  sha3_256 : List Nat → List Nat
  shake128Stream : List Nat → Nat → Nat
  shake256Stream : List Nat → Nat → Nat
  sha3_512_length : ∀ x, (sha3_512 x).length = 64
  sha3_256_length : ∀ x, (sha3_256 x).length = 32

/-- A trivial instance of the primitives interface (all-zero digests and streams),
used to instantiate theorems at concrete inputs. -/
def zeroPrimitives : Primitives where
  sha3_512 := fun _ => List.replicate 64 0
  sha3_256 := fun _ => List.replicate 32 0
  shake128Stream := fun _ _ => 0
  shake256Stream := fun _ _ => 0
  sha3_512_length := fun _ => List.length_replicate 64 0
  sha3_256_length := fun _ => List.length_replicate 32 0

/-- An instance of the primitives interface in which the four primitives are
pairwise distinct functions (as they are in reality: the SHA-3 and SHAKE family
members use different Keccak padding bytes and rates, so e.g. the first 32 bytes of
`SHA3-512(x)` never agree with `SHAKE-256(x)` in practice). Used to witness that code
calling one primitive disagrees with a specification that demands another. -/
def distinguishingPrimitives : Primitives where
  sha3_512 := fun _ => List.replicate 64 0
  sha3_256 := fun _ => List.replicate 32 1
  shake128Stream := fun _ _ => 2
  shake256Stream := fun _ _ => 3
  sha3_512_length := fun _ => List.length_replicate 64 0
  sha3_256_length := fun _ => List.length_replicate 32 1

/-! ## Parameter sets

Modelled from the spec: the `constants::parameter_sets` module (the `ParameterSet`
trait binding `K`, `EtaOne`, `EtaTwo`, `Du`, `Dv`) is not present under `src/`; the
spec (section 4.4) fixes the three levels. -/
structure ParamSet where
  k : Nat
  eta1 : Nat
  eta2 : Nat
  du : Nat
  dv : Nat

/-- Modelled from the spec: ML-KEM-512 has (k, eta1, eta2, du, dv) = (2, 3, 2, 10, 4). -/
def p512 : ParamSet := ⟨2, 3, 2, 10, 4⟩

/-- Modelled from the spec: ML-KEM-768 has (k, eta1, eta2, du, dv) = (3, 2, 2, 10, 4). -/
def p768 : ParamSet := ⟨3, 2, 2, 10, 4⟩

/-- Modelled from the spec: ML-KEM-1024 has (k, eta1, eta2, du, dv) = (4, 2, 2, 11, 5). -/
def p1024 : ParamSet := ⟨4, 2, 2, 11, 5⟩

/-! ## Field arithmetic (`src/src/math/field_element.rs`)

`q = 3329`, Barrett multiplier `5039 = ⌊4^12 / q⌋`, shift `24`. -/

/-- `FieldElement::reduce_once` (u16 wrapping arithmetic):
`x = val.wrapping_sub(q); x = x.wrapping_add((x >> 15).wrapping_mul(q))`. -/
def reduce_once (v : Nat) : Nat :=
  let x := (v + 65536 - 3329) % 65536
  (x + ((x >>> 15) * 3329)) % 65536

/-- `FieldElement::new`: construct from a `u16`, reducing once. -/
def fnew (v : Nat) : Nat := reduce_once v

/-- `FieldElement::check_reduced`: errs iff the value exceeds `q` (note: `> q`, so
`q` itself passes). `True` means the value passed the check. -/
def check_reduced (v : Nat) : Bool := decide (v ≤ 3329)

/-- `FieldElement::barrett_reduce` on a `u32` product:
`quotient = ((product as u64 * 5039) >> 24) as u32; new((product - quotient*q) as u16)`. -/
def barrett_reduce (product : Nat) : Nat :=
  let quotient := ((product * 5039) >>> 24) % 4294967296
  fnew ((product + 4294967296 - (quotient * 3329) % 4294967296) % 4294967296 % 65536)

/-- `impl AddAssign for FieldElement`: `self.0 = (a + b) % q`. -/
def fadd_assign (a b : Nat) : Nat := (a + b) % 3329

/-- `impl Add for FieldElement`: `Self::new(a + b)`. -/
def fadd (a b : Nat) : Nat := fnew (a + b)

/-- `impl Sub for FieldElement`: conditionally add `q`, then `Self::new`. -/
def fsub (a b : Nat) : Nat :=
  fnew (if a < b then a + 3329 - b else a - b)

/-- `impl Mul<u16> for FieldElement` and `impl Mul<FieldElement> for u16`:
Barrett-reduce the `u32` product. -/
def fmul (a b : Nat) : Nat := barrett_reduce (a * b)

/-- `FieldElement::compress::<d>` (`u64` wrapping arithmetic; both the const-generic
version and the `Compress` trait implementation perform this computation):
shift left by `d`, Barrett-style divide by `q` with two round-half-up adjustments
(`remainder > q/2`, `remainder > q + q/2`), then mask to `d` bits. -/
def compress (d x : Nat) : Nat :=
  let dividend := (x <<< (d % 64)) % 18446744073709551616
  let quotient := ((dividend * 5039) % 18446744073709551616) >>> (24 % 64)
  let remainder := (dividend + 18446744073709551616 - (quotient * 3329) % 18446744073709551616)
      % 18446744073709551616
  let aq := if remainder > 1664 then (quotient + 1) % 18446744073709551616 else quotient
  let aq2 := if remainder > 4993 then (aq + 1) % 18446744073709551616 else aq
  (aq2 &&& (2 ^ d - 1)) % 65536

/-- `FieldElement::decompress::<d>` (`u32` wrapping arithmetic):
`⌊q·y / 2^d⌉` computed as `(q*y) >> d + ((q*y) >> (d-1)) & 1`, cast back to `u16`. -/
def decompress (d y : Nat) : Nat :=
  let dividend := (y * 3329) % 4294967296
  let quotient := dividend >>> (d % 32)
  ((quotient + ((dividend >>> ((d - 1) % 32)) &&& 1)) % 4294967296) % 65536

/-! ## Errors

`src/src/error.rs` defines `KemError::{InvalidInput, DecapsulationFailure, EncodingError}`.
`byte_decode_12` errors (strings in the source) propagate through `?` as the
encoding-error kind. A Rust slice-indexing panic aborts the process; it is modelled
as the distinguished `RtError.panic`. -/
inductive KemError where
  | invalidInput : KemError
  | decapsulationFailure : KemError
  | encodingError : KemError
deriving DecidableEq, Repr

/-- Errors of the full decapsulation pipeline: a `KemError`, or a slice-indexing
panic (a process abort in Rust, not a returned error). -/
inductive RtError where
  | kem : KemError → RtError
  | panic : RtError
deriving DecidableEq, Repr

/-! ## Width-12 byte decoding (`src/src/math/ntt_element.rs`, `byte_decode_12`) -/

/-- `FieldElement::check_reduced` lifted to the error monad, as used by
`byte_decode_12` (`.map_err(|_| "Invalid polynomial encoding")`). -/
def check_reduced_e (v : Nat) : Except KemError Nat :=
  if v > 3329 then Except.error KemError.encodingError else Except.ok v

/-- The 3-byte groups scanned by the `while i < b.len()` loop of `byte_decode_12`
(index steps of 3; a trailing group of fewer than 3 bytes is never reached because
the length is checked to be 384 first). -/
def chunks3 : List Nat → List (List Nat)
  | b0 :: b1 :: b2 :: rest => [b0, b1, b2] :: chunks3 rest
  | _ => []

/-- The 24-bit group `d = b[i] | b[i+1] << 8 | b[i+2] << 16` read by `byte_decode_12`. -/
def chVal (ch : List Nat) : Nat :=
  ch.getD 0 0 + 256 * ch.getD 1 0 + 65536 * ch.getD 2 0

/-- The two field elements one loop iteration of `byte_decode_12` produces:
each 12-bit half is passed through `F::new` (a single conditional subtraction). -/
def chElems (ch : List Nat) : List Nat :=
  [fnew (chVal ch &&& 4095), fnew ((chVal ch >>> 12) % 65536)]

/-- One iteration of the `byte_decode_12` loop: assemble the 24-bit group,
split into two 12-bit values, pass each through `F::new` and `check_reduced`. -/
def decode12chunk (ch : List Nat) : Except KemError (List Nat) := do
  let e1 ← check_reduced_e (fnew (chVal ch &&& 4095))
  let e2 ← check_reduced_e (fnew ((chVal ch >>> 12) % 65536))
  pure [e1, e2]

/-- `NttElement::byte_decode_12`: length check, then the decoding loop. -/
def byte_decode_12 (b : List Nat) : Except KemError (List Nat) :=
  if b.length ≠ 384 then Except.error KemError.encodingError
  else do
    let chunks ← (chunks3 b).mapM decode12chunk
    pure chunks.flatten

/-- The value `byte_decode_12` produces when it succeeds (the same loop without the
error plumbing). -/
def decode12core (b : List Nat) : List Nat :=
  (chunks3 b).flatMap chElems

/-- A 12-bit value, after `F::new`'s single conditional subtraction, is `< q`,
so `check_reduced` can never fire on it. -/
theorem fnew_lt_of_lt_4096 (v : Nat) (hv : v < 4096) : fnew v < 3329 := by
  have h := ballCheck_sound (fun z => fnew z < 3329) 4096 0 (by decide) v hv
  simpa using h

theorem check_reduced_e_ok (v : Nat) (hv : v < 4096) :
    check_reduced_e (fnew v) = Except.ok (fnew v) := by
  have h := fnew_lt_of_lt_4096 v hv
  rw [check_reduced_e, if_neg (by omega)]

theorem chVal_lt (ch : List Nat) (hch : ∀ x ∈ ch, x < 256) : chVal ch < 16777216 := by
  have h0 : ch.getD 0 0 < 256 := by
    rcases ch with _ | ⟨a, t⟩
    · simp
    · exact hch a (by simp)
  have h1 : ch.getD 1 0 < 256 := by
    rcases ch with _ | ⟨a, t⟩
    · simp
    · rcases t with _ | ⟨b, t2⟩
      · simp
      · exact hch b (by simp)
  have h2 : ch.getD 2 0 < 256 := by
    rcases ch with _ | ⟨a, t⟩
    · simp
    · rcases t with _ | ⟨b, t2⟩
      · simp
      · rcases t2 with _ | ⟨c, t3⟩
        · simp
        · exact hch c (by simp)
  rw [chVal]
  omega

theorem decode12chunk_ok (ch : List Nat) (hch : ∀ x ∈ ch, x < 256) :
    decode12chunk ch = Except.ok (chElems ch) := by
  have hd := chVal_lt ch hch
  have hlow : chVal ch &&& 4095 < 4096 := by
    have := Nat.and_le_right (n := chVal ch) (m := 4095)
    omega
  have hhigh : (chVal ch >>> 12) % 65536 < 4096 := by
    have hdiv : chVal ch >>> 12 = chVal ch / 4096 := Nat.shiftRight_eq_div_pow _ 12
    have hq : chVal ch / 4096 < 4096 := by omega
    rw [hdiv]
    omega
  rw [decode12chunk, check_reduced_e_ok _ hlow, check_reduced_e_ok _ hhigh]
  rfl

theorem mapM_chunks3_ok : ∀ (l : List Nat), (∀ x ∈ l, x < 256) →
    (chunks3 l).mapM decode12chunk = Except.ok ((chunks3 l).map chElems)
  | b0 :: b1 :: b2 :: rest => by
    intro hb
    have hch : ∀ x ∈ [b0, b1, b2], x < 256 := by
      intro x hx
      rcases List.mem_cons.mp hx with h | h
      · exact h ▸ hb b0 (by simp)
      · rcases List.mem_cons.mp h with h2 | h2
        · exact h2 ▸ hb b1 (by simp)
        · rcases List.mem_cons.mp h2 with h3 | h3
          · exact h3 ▸ hb b2 (by simp)
          · simp at h3
    have ih := mapM_chunks3_ok rest (fun x hx => hb x (by simp [hx]))
    rw [chunks3, List.mapM_cons, decode12chunk_ok _ hch, ih]
    rfl
  | [] => by intro _; rfl
  | [b0] => by intro _; rfl
  | [b0, b1] => by intro _; rfl

/-- Under the length guard, `byte_decode_12` succeeds and returns `decode12core`. -/
theorem byte_decode_12_ok (b : List Nat) (hb : ∀ x ∈ b, x < 256)
    (hlen : b.length = 384) :
    byte_decode_12 b = Except.ok (decode12core b) := by
  rw [byte_decode_12, if_neg (by omega), mapM_chunks3_ok b hb]
  rw [decode12core, List.flatMap_def]
  rfl

/-! ## NTT roots

Modelled from the spec: the `K_NTT_ROOTS` / `K_MOD_ROOTS` tables live in the
`constants` module that is missing from `src/`; the tests in `src/src/math/util.rs`
and the spec pin them as `K_NTT_ROOTS[i] = 17^(br7 i) mod q` and
`K_MOD_ROOTS[i] = 17^(2·br7 i + 1) mod q`, with `br7` the 7-bit bit reversal. -/

/-- 7-bit bit reversal. -/
def br7 (i : Nat) : Nat :=
  (List.range 7).foldl (fun acc j => acc * 2 + ((i >>> j) &&& 1)) 0

/-- Modelled from the spec: `K_NTT_ROOTS[i] = 17^(br7 i) mod 3329`. -/
def kNttRoots : List Nat := (List.range 128).map fun i => 17 ^ br7 i % 3329

/-- Modelled from the spec: `K_MOD_ROOTS[i] = 17^(2·br7 i + 1) mod 3329`. -/
def kModRoots : List Nat := (List.range 128).map fun i => 17 ^ (2 * br7 i + 1) % 3329

/-! ## NTT element operations (`src/src/math/ntt_element.rs`)

A polynomial (in either domain) is a `List Nat` of its 256 coefficients. -/

/-- One Cooley-Tukey butterfly of `NttElement::ntt`:
`t = zeta * a[j+len] % q; a[j+len] = a[j] - F::new(t); a[j] += F::new(t)`. -/
def nttButterfly (zeta len : Nat) (s : List Nat) (j : Nat) : List Nat :=
  let t := fmul zeta (s.getD (j + len) 0) % 3329
  let s1 := s.set (j + len) (fsub (s.getD j 0) (fnew t))
  s1.set j (fadd_assign (s1.getD j 0) (fnew t))

/-- The inner `for j in start..start+len` loop of `NttElement::ntt`. -/
def nttBlock (zeta len start : Nat) (s : List Nat) : List Nat :=
  (List.range len).foldl (fun s2 i => nttButterfly zeta len s2 (start + i)) s

/-- One `len` layer of `NttElement::ntt`: iterate over the blocks
`start ∈ {0, 2·len, …}`, consuming one root index `k` per block. The state is
`(coefficients, k)`. -/
def nttLayer (st : List Nat × Nat) (len : Nat) : List Nat × Nat :=
  (List.range (256 / (2 * len))).foldl
    (fun st2 b => (nttBlock (kNttRoots.getD st2.2 0) len (2 * len * b) st2.1, st2.2 + 1))
    st

/-- `NttElement::ntt`: the `while len >= 2` loop with `len = 128, 64, …, 2` and the
root counter `k` starting at 1. -/
def ntt (s : List Nat) : List Nat :=
  ([128, 64, 32, 16, 8, 4, 2].foldl nttLayer (s, 1)).1

/-- One Gentleman-Sande butterfly of `NttElement::ntt_inv`:
`t = a[j]; a[j] = t + a[j+len]; a[j+len] = F::new(zeta * (a[j+len] - t))`. -/
def nttInvButterfly (zeta len : Nat) (s : List Nat) (j : Nat) : List Nat :=
  let t := s.getD j 0
  let s1 := s.set j (fadd t (s.getD (j + len) 0))
  s1.set (j + len) (fnew (fmul zeta (fsub (s1.getD (j + len) 0) t)))

/-- The inner `for j in start..start+len` loop of `NttElement::ntt_inv`. -/
def nttInvBlock (zeta len start : Nat) (s : List Nat) : List Nat :=
  (List.range len).foldl (fun s2 i => nttInvButterfly zeta len s2 (start + i)) s

/-- One `len` layer of `NttElement::ntt_inv`; the root counter `k` decrements. -/
def nttInvLayer (st : List Nat × Nat) (len : Nat) : List Nat × Nat :=
  (List.range (256 / (2 * len))).foldl
    (fun st2 b => (nttInvBlock (kNttRoots.getD st2.2 0) len (2 * len * b) st2.1, st2.2 - 1))
    st

/-- `NttElement::ntt_inv`: the `while len <= 128` loop with `len = 2, 4, …, 128`,
`k` starting at 127, followed by multiplying every coefficient by
`3303 = 128⁻¹ mod q`. -/
def ntt_inv (s : List Nat) : List Nat :=
  (([2, 4, 8, 16, 32, 64, 128].foldl nttInvLayer (s, 127)).1).map fun x => fmul x 3303

/-- `NttElement::base_case_multiply`:
`(a0·b0 + (a1·b1)·γ, a0·b1 + a1·b0)` with field multiplication and addition. -/
def base_case_multiply (a0 a1 b0 b1 gamma : Nat) : Nat × Nat :=
  (fadd (fmul a0 b0) (fmul (fmul a1 b1) gamma), fadd (fmul a0 b1) (fmul a1 b0))

/-- `NttElement::multiply_ntts`: 128 base-case multiplications into a zero element,
with `γ = K_MOD_ROOTS[i]`. -/
def multiply_ntts (a b : List Nat) : List Nat :=
  (List.range 128).foldl
    (fun h i =>
      let gamma := kModRoots.getD i 0
      let p := base_case_multiply (a.getD (2 * i) 0) (a.getD (2 * i + 1) 0)
        (b.getD (2 * i) 0) (b.getD (2 * i + 1) 0) gamma
      (h.set (2 * i) p.1).set (2 * i + 1) p.2)
    (List.replicate 256 0)

/-- Read bound for the `sample_ntt` rejection loop. The Rust loop reads the XOF
until 256 coefficients are accepted; the loop is modelled with a generous bound of
4096 three-byte groups (the remaining coefficients of a stream that keeps rejecting
stay zero, like the zero-initialised array in the source). -/
def sampleNttFuel : Nat := 4096

/-- `NttElement::sample_ntt` (FIPS 203 Algorithm 6): absorb `rho ‖ i ‖ j` into
SHAKE-128, split the stream into 3-byte groups, each yielding two 12-bit candidates
`d1 = le16(b0, b1) & 0xFFF` and `d2 = (b1 | b2 << 8) >> 4 & 0xFFF`; accept
candidates `< q` in order until 256 coefficients are placed. Callers pass
`i, j < k ≤ 4`, so the `usize → u8` conversions are lossless. -/
def sample_ntt (H : Primitives) (rho : List Nat) (ii jj : Nat) : List Nat :=
  let input := rho ++ [ii, jj]
  let cand := (List.range sampleNttFuel).flatMap fun g =>
    let b0 := H.shake128Stream input (3 * g) % 256
    let b1 := H.shake128Stream input (3 * g + 1) % 256
    let b2 := H.shake128Stream input (3 * g + 2) % 256
    [(b0 + 256 * b1) % 65536 &&& 4095, ((b1 + 256 * b2) % 65536) >>> 4 &&& 4095]
  let acc := (cand.filter fun d => d < 3329).take 256
  acc ++ List.replicate (256 - acc.length) 0

/-- Bit `j` of a little-endian byte string (FIPS 203 `BytesToBits` order, matching
the bit extraction of the concrete `sample_poly_cbd` in `src/src/math/ring_element.rs`). -/
def bytesToBit (B : List Nat) (j : Nat) : Nat := (B.getD (j / 8) 0 >>> (j % 8)) &&& 1

/-- Modelled from the spec: the η-generic `RingElement::sample_poly_cbd::<Eta>` the
`fips203` modules call is missing from `src/` (only an η = 2 instance survives in
`src/src/math/ring_element.rs`); the spec (section 4.2) fixes it: draw `64·η` bytes
from SHAKE-256 keyed by `seed ‖ nonce`, and set coefficient `i` to the difference of
the popcounts of bits `[2iη, 2iη+η)` and `[2iη+η, 2iη+2η)`, mapped into `F_q`. -/
def sample_poly_cbd (H : Primitives) (eta : Nat) (s : List Nat) (b : Nat) : List Nat :=
  let B := (List.range (64 * eta)).map fun i => H.shake256Stream (s ++ [b % 256]) i % 256
  (List.range 256).map fun i =>
    let x := (List.range eta).foldl (fun acc j => acc + bytesToBit B (2 * i * eta + j)) 0
    let y := (List.range eta).foldl
      (fun acc j => acc + bytesToBit B (2 * i * eta + eta + j)) 0
    fsub (fnew x) (fnew y)

/-! ## Mathematical form of the NTT butterflies

On reduced inputs (`a, b, zeta < q`) the field operations of the butterflies reduce
to plain modular arithmetic; these four maps capture them. -/

/-- Forward butterfly, first output: `(a + zeta·b) mod q`. -/
def mbf1 (zeta a b : Nat) : Nat := (a + zeta * b % 3329) % 3329

/-- Forward butterfly, second output: `(a − zeta·b) mod q`. -/
def mbf2 (zeta a b : Nat) : Nat := (a + 3329 - zeta * b % 3329) % 3329

/-- Inverse butterfly, first output: `(a + b) mod q`. -/
def ibf1 (a b : Nat) : Nat := (a + b) % 3329

/-- Inverse butterfly, second output: `zeta·(b − a) mod q`. -/
def ibf2 (zeta a b : Nat) : Nat := zeta * ((b + 3329 - a) % 3329) % 3329

/-- The forward NTT in recursive (divide-and-conquer) form: at heap node `kk` on a
segment of length `2^(t+1)`, butterfly the two halves with root `kNttRoots[kk]` and
recurse into the children `2kk`, `2kk+1`. -/
def fwdRec : Nat → Nat → List Nat → List Nat
  | 0, _, s => s
  | t + 1, kk, s =>
    let z := kNttRoots.getD kk 0
    let u := s.take (2 ^ (t + 1))
    let v := s.drop (2 ^ (t + 1))
    fwdRec t (2 * kk) (List.zipWith (mbf1 z) u v) ++
      fwdRec t (2 * kk + 1) (List.zipWith (mbf2 z) u v)

/-- The inverse NTT layers in recursive form: recurse into the children first, then
combine the halves with root `kNttRoots[3·2^(6−t) − 1 − kk]` (the index the
decrementing `k` counter of `ntt_inv` assigns to this block). -/
def invRec : Nat → Nat → List Nat → List Nat
  | 0, _, s => s
  | t + 1, kk, s =>
    let g := invRec t (2 * kk) (s.take (2 ^ (t + 1)))
    let h := invRec t (2 * kk + 1) (s.drop (2 ^ (t + 1)))
    let z := kNttRoots.getD (3 * 2 ^ (6 - t) - 1 - kk) 0
    List.zipWith ibf1 g h ++ List.zipWith (ibf2 z) g h

/-! ## Ring element operations

The `RingElement` the `fips203` modules use (a 256-coefficient value type with
pointwise `Add`/`Sub`/`AddAssign` and an iterator `Sum`) is present across the
iterations in `src/src/math/ring_element.rs`; pointwise operations delegate to the
field operations. -/

/-- Pointwise `Add` (each coefficient via `F::new(a + b)`). -/
def ring_add (a b : List Nat) : List Nat := List.zipWith fadd a b

/-- Pointwise `AddAssign` (each coefficient via `(a + b) % q`). -/
def ring_add_assign (a b : List Nat) : List Nat := List.zipWith fadd_assign a b

/-- Pointwise `Sub`. -/
def ring_sub (a b : List Nat) : List Nat := List.zipWith fsub a b

/-- `RingElement::zero` / `NttElement::zero`. -/
def ring_zero : List Nat := List.replicate 256 0

/-- Iterator `sum` of ring elements: fold of `+` from the zero element. -/
def ring_sum (l : List (List Nat)) : List Nat := l.foldl ring_add ring_zero

/-! ## Generic d-bit encoding (`src/src/math/encoding.rs`) -/

/-- `slice::chunks(n)` (includes a short trailing chunk), with a structural fuel so
the kernel can reduce it. -/
def chunksOfAux {α : Type} (n : Nat) : Nat → List α → List (List α)
  | 0, _ => []
  | _ + 1, [] => []
  | fuel + 1, x :: xs => (x :: xs).take n :: chunksOfAux n fuel ((x :: xs).drop n)

/-- `slice::chunks(n)` on a list. -/
def chunksOf {α : Type} (n : Nat) (l : List α) : List (List α) := chunksOfAux n l.length l

/-- `u128::from_le_bytes` of a chunk copied into a zeroed 16-byte buffer
(`xb[..b_len].copy_from_slice(b)`); bytes are `u8`, hence the `% 256`. -/
def leVal16 (b : List Nat) : Nat :=
  (List.range 16).foldl (fun acc i => acc + (b.getD i 0 % 256) <<< (8 * i)) 0

/-- `encoding::byte_decode::<D>`: split the bytes into `lcm(d,8)/8`-byte groups,
read each as a little-endian integer, extract `lcm(d,8)/d` d-bit values; a width-12
value is additionally reduced `% q`. Groups beyond the byte string (or beyond the
256 coefficients) leave the remaining coefficients of the zero element untouched. -/
def byte_decode (d : Nat) (bytes : List Nat) : List Nat :=
  let valStep := Nat.lcm d 8 / d
  let byteStep := Nat.lcm d 8 / 8
  let bchunks := chunksOf byteStep bytes
  let m := min (256 / valStep) bchunks.length
  ((bchunks.take m).flatMap fun ch =>
    (List.range valStep).map fun j =>
      let val := leVal16 ch >>> (d * j) &&& (2 ^ d - 1)
      if d = 12 then val % 3329 else val)
    ++ List.replicate (256 - m * valStep) 0

/-- `encoding::byte_encode::<D>`: pack each `lcm(d,8)/d`-coefficient group into a
little-endian integer (`x |= val << (d*j)`, coefficients are `u16`) and emit its
first `lcm(d,8)/8` bytes. -/
def byte_encode (d : Nat) (vals : List Nat) : List Nat :=
  let valStep := Nat.lcm d 8 / d
  let byteStep := Nat.lcm d 8 / 8
  (chunksOf valStep vals).flatMap fun v =>
    let x := (List.range valStep).foldl (fun acc j => acc ||| (v.getD j 0 % 65536) <<< (d * j)) 0
    (List.range byteStep).map fun i => x >>> (8 * i) &&& 255

/-- `NttElement::byte_encode_12`: append, to the accumulator `b`, three bytes per
coefficient pair from `x = c[i] | c[i+1] << 12` (coefficients are `u16`). -/
def byte_encode_12 (coeffs : List Nat) (b : List Nat) : List Nat :=
  b ++ (chunksOf 2 coeffs).flatMap fun p =>
    let x := p.getD 0 0 % 65536 ||| (p.getD 1 0 % 65536) <<< 12
    [x &&& 255, x >>> 8 &&& 255, x >>> 16 &&& 255]

/-- `Compress::compress` on a ring element: pointwise. -/
def ring_compress (d : Nat) (a : List Nat) : List Nat := a.map (compress d)

/-- `Compress::decompress` on a ring element: pointwise. -/
def ring_decompress (d : Nat) (a : List Nat) : List Nat := a.map (decompress d)

/-! ## The FIPS 203 layer (`src/src/fips203/`) -/

@[simp] theorem except_bind_ok {α β ε : Type} (a : α) (f : α → Except ε β) :
    (Except.ok a >>= f : Except ε β) = f a := rfl

theorem prod4_1 {α β γ δ : Type} (a : α) (b : β) (c : γ) (d : δ) :
    (a, b, c, d).1 = a := rfl

theorem prod4_2 {α β γ δ : Type} (a : α) (b : β) (c : γ) (d : δ) :
    (a, b, c, d).2.1 = b := rfl

theorem prod4_3 {α β γ δ : Type} (a : α) (b : β) (c : γ) (d : δ) :
    (a, b, c, d).2.2.1 = c := rfl

theorem prod4_4 {α β γ δ : Type} (a : α) (b : β) (c : γ) (d : δ) :
    (a, b, c, d).2.2.2 = d := rfl

@[simp] theorem except_bind_err {α β ε : Type} (e : ε) (f : α → Except ε β) :
    (Except.error e >>= f : Except ε β) = Except.error e := rfl

/-- Propagation of a `byte_decode_12` error through `?` into the pipeline error type. -/
def liftKem {α : Type} : Except KemError α → Except RtError α
  | Except.ok a => Except.ok a
  | Except.error e => Except.error (RtError.kem e)

/-- A Rust subslice `&l[a..b]`: panics when out of bounds. -/
def sliceE (l : List Nat) (a b : Nat) : Except RtError (List Nat) :=
  if a ≤ b ∧ b ≤ l.length then Except.ok ((l.drop a).take (b - a))
  else Except.error RtError.panic

/-- `subtle`'s `ct_eq` on byte slices: equal lengths and equal bytes (the constant-time
aspect is a timing property with no functional content). -/
def ctEq (a b : List Nat) : Bool := a == b

/-- `derive_keys` (identical in `encrypt.rs` for `(m, H(ek))` and in `decrypt.rs` for
`(m', h)`): SHA3-512 of the concatenation, split at 32 into `(K, r)`. -/
def derive_keys (H : Primitives) (a b : List Nat) : List Nat × List Nat :=
  let binding := H.sha3_512 (a ++ b)
  (binding.take 32, binding.drop 32)

/-- `decrypt.rs`, `compute_k_bar`: the implicit-rejection secret, computed as the
first 32 bytes of a SHA3-512 digest of `z ‖ c`. -/
def compute_k_bar (H : Primitives) (z c : List Nat) : List Nat :=
  (H.sha3_512 (z ++ c)).take 32

/-- `encrypt.rs`, `hash_to_slice`: first `sliceSize` bytes of SHA3-512 of `data`. -/
def hash_to_slice (H : Primitives) (data : List Nat) (sliceSize : Nat) : List Nat :=
  (H.sha3_512 data).take sliceSize

/-- `keygen.rs`, `hash_ek`: first 32 bytes of SHA3-512 of `ek`. -/
def hash_ek (H : Primitives) (ek : List Nat) : List Nat :=
  (H.sha3_512 ek).take 32

/-- `keygen.rs`, `pack_dk`: `dk ← dk_PKE ‖ ek ‖ hash_ek(ek) ‖ z`. -/
def pack_dk (dk ek hEk z : List Nat) : List Nat := dk ++ ek ++ hEk ++ z

/-- The CBD draws for the vector `r` in `k_pke_encrypt` (`encrypt.rs` lines 115-119):
nonces `0 … k−1`, width `P::EtaTwo`. -/
def encryptRVec (H : Primitives) (P : ParamSet) (rand : List Nat) : List (List Nat) :=
  (List.range P.k).map fun i => sample_poly_cbd H P.eta2 rand i

/-- `r_hat`: each drawn polynomial sent through the forward NTT (`.into()`). -/
def encryptRHat (H : Primitives) (P : ParamSet) (rand : List Nat) : List (List Nat) :=
  (encryptRVec H P rand).map ntt

/-- The CBD draws for `e_1` (`encrypt.rs` lines 122-126): nonces `k … 2k−1`,
width `P::EtaTwo`. -/
def encryptE1 (H : Primitives) (P : ParamSet) (rand : List Nat) : List (List Nat) :=
  (List.range P.k).map fun i => sample_poly_cbd H P.eta2 rand (P.k + i)

/-- The CBD draw for `e_2` (`encrypt.rs` line 129): nonce `2k`, width `P::EtaTwo`. -/
def encryptE2 (H : Primitives) (P : ParamSet) (rand : List Nat) : List Nat :=
  sample_poly_cbd H P.eta2 rand (2 * P.k)

/-- The computation `k_pke_encrypt` performs after decoding `t̂` and `ρ` (everything
from `encrypt.rs` line 106 on): rebuild `Â` via `sample_ntt(ρ, i, j)`, draw the noise
(`encryptRVec`/`encryptE1`/`encryptE2`), compute `u` and `v`, compress and encode. -/
def k_pke_encrypt_post (H : Primitives) (P : ParamSet) (tHat : List (List Nat))
    (rho m rand : List Nat) : List Nat :=
  let aHatT := (List.range (P.k * P.k)).map fun idx =>
    sample_ntt H rho (idx / P.k) (idx % P.k)
  let rHat := encryptRHat H P rand
  let e1 := encryptE1 H P rand
  let e2 := encryptE2 H P rand
  let u := (List.range P.k).map fun i =>
    ring_add (e1.getD i [])
      (ring_sum ((List.range P.k).map fun j =>
        ntt_inv (multiply_ntts (aHatT.getD (i * P.k + j) []) (rHat.getD j []))))
  let mu := ring_decompress 1 (byte_decode 1 m)
  let vNtt := (List.range P.k).foldl
    (fun acc i => ring_add_assign acc (multiply_ntts (tHat.getD i []) (rHat.getD i [])))
    ring_zero
  let v := ring_add_assign (ring_add_assign (ntt_inv vNtt) e2) mu
  let c1 := u.flatMap fun r => byte_encode P.du (ring_compress P.du r)
  c1 ++ byte_encode P.dv (ring_compress P.dv v)

/-- `encrypt.rs`, `k_pke_encrypt`: decode `t̂` from the first `384·k` bytes of
`ek_PKE` and `ρ` from the following 32, then `k_pke_encrypt_post`. -/
def k_pke_encrypt (H : Primitives) (P : ParamSet) (ekPke m rand : List Nat) :
    Except RtError (List Nat) := do
  let tHat ← (List.range P.k).mapM fun i => do
    let sl ← sliceE ekPke (384 * i) (384 * (i + 1))
    liftKem (byte_decode_12 sl)
  let rho ← sliceE ekPke (384 * P.k) (384 * P.k + 32)
  pure (k_pke_encrypt_post H P tHat rho m rand)

/-- The value `k_pke_encrypt` produces on a well-formed `ek_PKE`. -/
def k_pke_encrypt_core (H : Primitives) (P : ParamSet) (ekPke m rand : List Nat) :
    List Nat :=
  k_pke_encrypt_post H P
    ((List.range P.k).map fun i => decode12core ((ekPke.drop (384 * i)).take 384))
    ((ekPke.drop (384 * P.k)).take 32) m rand

/-- `encrypt.rs`, `mlkem_encaps`: length check, modulus (decode/re-encode) check with
a constant-time comparison, then `(K, r) ← G(m ‖ H(ek))` and K-PKE encryption.
`m` is the 32-byte random draw from the caller's RNG. -/
def mlkem_encaps (H : Primitives) (P : ParamSet) (ek m : List Nat) :
    Except RtError (List Nat × List Nat) := do
  if ek.length ≠ 384 * P.k + 32 then Except.error (RtError.kem KemError.invalidInput)
  else do
    let ekReencoded ← (List.range P.k).foldlM
      (fun acc i => do
        let sl ← sliceE ek (384 * i) (384 * (i + 1))
        let decoded ← liftKem (byte_decode_12 sl)
        pure (byte_encode_12 decoded acc))
      []
    if ¬ ctEq ekReencoded (ek.take (384 * P.k)) then
      Except.error (RtError.kem KemError.invalidInput)
    else do
      let hEk := hash_to_slice H ek 32
      let kr := derive_keys H m hEk
      let c ← k_pke_encrypt H P ek m kr.2
      pure (kr.1, c)

/-- `decrypt.rs`, `unpack_dk`: split `dk` into `(dk_PKE, ek_PKE, h, z)`;
the slice indexing panics when `dk` is shorter than `768·k + 96`. -/
def unpack_dk (P : ParamSet) (dk : List Nat) :
    Except RtError (List Nat × List Nat × List Nat × List Nat) :=
  let dkPkeSize := 384 * P.k
  let ekPkeSize := 384 * P.k + 32
  if dkPkeSize + ekPkeSize + 64 ≤ dk.length then
    Except.ok (dk.take dkPkeSize,
      (dk.drop dkPkeSize).take ekPkeSize,
      (dk.drop (dkPkeSize + ekPkeSize)).take 32,
      (dk.drop (dkPkeSize + ekPkeSize + 32)).take 32)
  else Except.error RtError.panic

/-- The `u` loop of `k_pke_decrypt`: `k` successive `split_at(32·d_u)` on the
ciphertext (a `split_at` beyond the slice length is a panic), each chunk decoded at
width `d_u` and decompressed. Returns the decoded vector and the remaining slice. -/
def decryptU (P : ParamSet) : Nat → List Nat → Except RtError (List (List Nat) × List Nat)
  | 0, slice => Except.ok ([], slice)
  | i + 1, slice =>
    if 32 * P.du ≤ slice.length then do
      let f := ring_decompress P.du (byte_decode P.du (slice.take (32 * P.du)))
      let pr ← decryptU P i (slice.drop (32 * P.du))
      Except.ok (f :: pr.1, pr.2)
    else Except.error RtError.panic

/-- The `s_hat` loop of `k_pke_decrypt`: `k` successive `split_at(384)` on `dk_PKE`,
each chunk through `byte_decode_12`. -/
def decryptSHat : Nat → List Nat → Except RtError (List (List Nat))
  | 0, _ => Except.ok []
  | i + 1, slice =>
    if 384 ≤ slice.length then do
      let f ← liftKem (byte_decode_12 (slice.take 384))
      let rest ← decryptSHat i (slice.drop 384)
      Except.ok (f :: rest)
    else Except.error RtError.panic

/-- The pure values of the `u` loop of `k_pke_decrypt` on a long-enough slice. -/
def decryptUCore (P : ParamSet) : Nat → List Nat → List (List Nat)
  | 0, _ => []
  | i + 1, slice =>
    ring_decompress P.du (byte_decode P.du (slice.take (32 * P.du)))
      :: decryptUCore P i (slice.drop (32 * P.du))

/-- The pure values of the `s_hat` loop of `k_pke_decrypt` on a well-formed `dk_PKE`. -/
def decryptSHatCore : Nat → List Nat → List (List Nat)
  | 0, _ => []
  | i + 1, slice => decode12core (slice.take 384) :: decryptSHatCore i (slice.drop 384)

/-- The computation `k_pke_decrypt` performs after the `u` and `ŝ` loops: decode and
decompress `v` from the trailing `32·d_v` ciphertext bytes, accumulate
`y = Σᵢ NTT⁻¹(ŝᵢ · NTT(uᵢ))`, and encode `compress₁(v − y)` as the 32-byte message. -/
def k_pke_decrypt_post (P : ParamSet) (u sHat : List (List Nat)) (c : List Nat) :
    List Nat :=
  let v := ring_decompress P.dv (byte_decode P.dv (c.drop (c.length - 32 * P.dv)))
  let y := (List.range P.k).foldl
    (fun acc i =>
      ring_add_assign acc (ntt_inv (multiply_ntts (sHat.getD i []) (ntt (u.getD i [])))))
    ring_zero
  byte_encode 1 (ring_compress 1 (ring_sub v y))

/-- `decrypt.rs`, `k_pke_decrypt`: decode `u` and `v` from the ciphertext and `ŝ`
from `dk_PKE`, then `k_pke_decrypt_post`. The `v` slice `&c[c.len()-c2_size..]`
panics when the ciphertext is shorter than `32·d_v`. -/
def k_pke_decrypt (P : ParamSet) (dkPke c : List Nat) : Except RtError (List Nat) := do
  let ur ← decryptU P P.k c
  let sHat ← decryptSHat P.k dkPke
  if 32 * P.dv ≤ c.length then pure (k_pke_decrypt_post P ur.1 sHat c)
  else Except.error RtError.panic

/-- The value `k_pke_decrypt` produces on well-formed inputs. -/
def k_pke_decrypt_core (P : ParamSet) (dkPke c : List Nat) : List Nat :=
  k_pke_decrypt_post P (decryptUCore P P.k c) (decryptSHatCore P.k dkPke) c

/-- `decrypt.rs`, `mlkem_decaps`: unpack `dk`, K-PKE-decrypt, derive `(K', r')` from
`(m', h)`, compute `K̄` from `(z, c)`, re-encrypt, and select `K'` or `K̄` by the
constant-time comparison of `c` with `c'`. -/
def mlkem_decaps (H : Primitives) (P : ParamSet) (c dk : List Nat) :
    Except RtError (List Nat) := do
  let parts ← unpack_dk P dk
  let mPrime ← k_pke_decrypt P parts.1 c
  let kr := derive_keys H mPrime parts.2.2.1
  let kBar := compute_k_bar H parts.2.2.2 c
  let cPrime ← k_pke_encrypt H P parts.2.1 mPrime kr.2
  pure (if ctEq c cPrime then kr.1 else kBar)

/-! ## Success of the checked steps on well-formed inputs -/

theorem sliceE_ok (l : List Nat) (a b : Nat) (h1 : a ≤ b) (h2 : b ≤ l.length) :
    sliceE l a b = Except.ok ((l.drop a).take (b - a)) := by
  rw [sliceE, if_pos ⟨h1, h2⟩]

theorem slice_length (l : List Nat) (a n : Nat) (h : a + n ≤ l.length) :
    ((l.drop a).take n).length = n := by
  rw [List.length_take, List.length_drop]
  omega

theorem slice_mem {l : List Nat} {a n x : Nat} (hx : x ∈ (l.drop a).take n) : x ∈ l :=
  List.drop_subset a l (List.take_subset n _ hx)

theorem liftKem_ok {α : Type} (x : α) : liftKem (Except.ok x) = Except.ok x := rfl

theorem mapM_ok {α β : Type} (f : α → Except RtError β) (g : α → β) :
    ∀ l : List α, (∀ a ∈ l, f a = Except.ok (g a)) → l.mapM f = Except.ok (l.map g) := by
  intro l
  induction l with
  | nil => intro _; rfl
  | cons a as ih =>
    intro h
    rw [List.mapM_cons, h a (by simp), ih (fun x hx => h x (by simp [hx]))]
    rfl

theorem foldlM_ok {α β : Type} (f : β → α → Except RtError β) (g : β → α → β) :
    ∀ l : List α, (∀ a ∈ l, ∀ acc, f acc a = Except.ok (g acc a)) →
      ∀ acc, l.foldlM f acc = Except.ok (l.foldl g acc) := by
  intro l
  induction l with
  | nil => intro _ acc; rfl
  | cons a as ih =>
    intro h acc
    rw [List.foldlM_cons, h a (by simp), except_bind_ok,
      ih (fun x hx => h x (by simp [hx]))]
    rfl

/-- On an `ek_PKE` of the right length made of bytes, `k_pke_encrypt` succeeds. -/
theorem k_pke_encrypt_ok (H : Primitives) (P : ParamSet) (ekPke m rand : List Nat)
    (hlen : ekPke.length = 384 * P.k + 32) (hb : ∀ x ∈ ekPke, x < 256) :
    k_pke_encrypt H P ekPke m rand =
      Except.ok (k_pke_encrypt_core H P ekPke m rand) := by
  rw [k_pke_encrypt]
  rw [mapM_ok _ (fun i => decode12core ((ekPke.drop (384 * i)).take 384))]
  · rw [except_bind_ok, sliceE_ok _ _ _ (by omega) (by omega), except_bind_ok]
    have h32 : 384 * P.k + 32 - 384 * P.k = 32 := by omega
    rw [h32]
    rfl
  · intro i hi
    have hik : i < P.k := List.mem_range.mp hi
    have hbound : 384 * (i + 1) ≤ ekPke.length := by
      have : 384 * (i + 1) ≤ 384 * P.k := by
        have := Nat.mul_le_mul_left 384 (Nat.succ_le_of_lt hik)
        omega
      omega
    rw [sliceE_ok _ _ _ (by omega) hbound, except_bind_ok]
    have hdiff : 384 * (i + 1) - 384 * i = 384 := by
      have : 384 * (i + 1) = 384 * i + 384 := by ring
      omega
    rw [hdiff]
    rw [byte_decode_12_ok _ (fun x hx => hb x (slice_mem hx))
      (slice_length _ _ _ (by omega))]
    rfl

theorem decryptU_ok (P : ParamSet) :
    ∀ (i : Nat) (slice : List Nat), 32 * P.du * i ≤ slice.length →
      ∃ rem, decryptU P i slice = Except.ok (decryptUCore P i slice, rem) := by
  intro i
  induction i with
  | zero => intro slice _; exact ⟨slice, rfl⟩
  | succ j ih =>
    intro slice hlen
    have hexp : 32 * P.du * (j + 1) = 32 * P.du * j + 32 * P.du := by ring
    have hd : 32 * P.du ≤ slice.length := by omega
    have hrest : 32 * P.du * j ≤ (slice.drop (32 * P.du)).length := by
      rw [List.length_drop]
      omega
    obtain ⟨rem, hrem⟩ := ih (slice.drop (32 * P.du)) hrest
    refine ⟨rem, ?_⟩
    rw [decryptU, if_pos hd, hrem, except_bind_ok]
    rfl

theorem decryptSHat_ok :
    ∀ (i : Nat) (slice : List Nat), 384 * i ≤ slice.length → (∀ x ∈ slice, x < 256) →
      decryptSHat i slice = Except.ok (decryptSHatCore i slice) := by
  intro i
  induction i with
  | zero => intro slice _ _; rfl
  | succ j ih =>
    intro slice hlen hb
    have hexp : 384 * (j + 1) = 384 * j + 384 := by ring
    have hd : 384 ≤ slice.length := by omega
    have htk : (slice.take 384).length = 384 := by
      rw [List.length_take]
      omega
    rw [decryptSHat, if_pos hd]
    rw [byte_decode_12_ok _ (fun x hx => hb x (List.take_subset _ _ hx)) htk, liftKem_ok,
      except_bind_ok]
    rw [ih (slice.drop 384) (by rw [List.length_drop]; omega)
      (fun x hx => hb x (List.drop_subset _ _ hx)), except_bind_ok]
    rfl

/-- On a well-formed `dk_PKE` and a ciphertext of at least the nominal length,
`k_pke_decrypt` succeeds. -/
theorem k_pke_decrypt_ok (P : ParamSet) (dkPke c : List Nat)
    (hdk : dkPke.length = 384 * P.k) (hb : ∀ x ∈ dkPke, x < 256)
    (hc : 32 * P.du * P.k + 32 * P.dv ≤ c.length) :
    k_pke_decrypt P dkPke c = Except.ok (k_pke_decrypt_core P dkPke c) := by
  obtain ⟨rem, hrem⟩ := decryptU_ok P P.k c (by omega)
  rw [k_pke_decrypt, hrem, except_bind_ok,
    decryptSHat_ok P.k dkPke (by omega) hb, except_bind_ok, if_pos (by omega)]
  rfl

/-- `keygen.rs`, `k_pke_keygen`: `(ρ, σ) ← G(d)`; matrix via `sample_ntt(ρ, j, i)`
(note the transposed indices); `s, e` via CBD width `P::EtaOne` with nonces
`0 … k−1` and `k … 2k−1`; `t̂ = Â∘ŝ + ê`; encode. -/
def k_pke_keygen (H : Primitives) (P : ParamSet) (d : List Nat) : List Nat × List Nat :=
  let b := H.sha3_512 d
  let rho := b.take 32
  let sigma := (b.drop 32).take 32
  let aHat := (List.range (P.k * P.k)).map fun idx =>
    sample_ntt H rho (idx % P.k) (idx / P.k)
  let sHat := (List.range P.k).map fun i => ntt (sample_poly_cbd H P.eta1 sigma i)
  let eHat := (List.range P.k).map fun i => ntt (sample_poly_cbd H P.eta1 sigma (P.k + i))
  let t := (List.range P.k).map fun i =>
    (List.range P.k).foldl
      (fun acc j => ring_add_assign acc (multiply_ntts (aHat.getD (i * P.k + j) [])
        (sHat.getD j [])))
      (eHat.getD i [])
  let ekPke := (t.foldl (fun acc el => byte_encode_12 el acc) []) ++ rho
  let dkPke := sHat.foldl (fun acc el => byte_encode_12 el acc) []
  (ekPke, dkPke)

/-- `keygen.rs`, `ml_kem_keygen`: draw a single 32-byte `z` from the RNG, use it both
as the K-PKE seed `d` and as the rejection seed packed into `dk`
(`let (ek, dk) = k_pke_keygen::<P>(&z); … pack_dk(&mut dk, &ek, &h_ek, &z)`). -/
def ml_kem_keygen (H : Primitives) (P : ParamSet) (z : List Nat) : List Nat × List Nat :=
  let p := k_pke_keygen H P z
  let hEk := hash_ek H p.1
  (p.1, pack_dk p.2 p.1 hEk z)

/-! ## Reference values of the decapsulation pipeline on well-formed inputs -/

/-- The `h = H(ek_PKE)` field `unpack_dk` reads from `dk`. -/
def decaps_h (P : ParamSet) (dk : List Nat) : List Nat :=
  (dk.drop (384 * P.k + (384 * P.k + 32))).take 32

/-- The rejection seed `z` field `unpack_dk` reads from `dk`. -/
def decaps_z (P : ParamSet) (dk : List Nat) : List Nat :=
  (dk.drop (384 * P.k + (384 * P.k + 32) + 32)).take 32

/-- The decrypted message `m'` in `mlkem_decaps`. -/
def decaps_m_prime (P : ParamSet) (c dk : List Nat) : List Nat :=
  k_pke_decrypt_core P (dk.take (384 * P.k)) c

/-- The shared secret `K'` derived in `mlkem_decaps` (first 32 bytes of `G(m' ‖ h)`). -/
def decaps_k_prime (H : Primitives) (P : ParamSet) (c dk : List Nat) : List Nat :=
  (derive_keys H (decaps_m_prime P c dk) (decaps_h P dk)).1

/-- The implicit-rejection secret `K̄` in `mlkem_decaps`. -/
def decaps_k_bar (H : Primitives) (P : ParamSet) (c dk : List Nat) : List Nat :=
  compute_k_bar H (decaps_z P dk) c

/-- The re-encrypted ciphertext `c'` in `mlkem_decaps`. -/
def decaps_c_prime (H : Primitives) (P : ParamSet) (c dk : List Nat) : List Nat :=
  k_pke_encrypt_core H P ((dk.drop (384 * P.k)).take (384 * P.k + 32))
    (decaps_m_prime P c dk)
    (derive_keys H (decaps_m_prime P c dk) (decaps_h P dk)).2

theorem derive_keys_fst_length (H : Primitives) (a b : List Nat) :
    (derive_keys H a b).1.length = 32 := by
  rw [derive_keys]
  simp [H.sha3_512_length]

theorem compute_k_bar_length (H : Primitives) (z c : List Nat) :
    (compute_k_bar H z c).length = 32 := by
  rw [compute_k_bar]
  simp [H.sha3_512_length]

/-! ## Normal forms of the field operations on reduced inputs -/

theorem reduce_once_eq (x : Nat) (hx : x < 6658) : reduce_once x = x % 3329 := by
  have h := ballCheck_sound (fun z => reduce_once z == z % 3329) 6658 0 (by decide) x hx
  simpa using h

theorem fnew_id (v : Nat) (hv : v < 3329) : fnew v = v := by
  rw [fnew, reduce_once_eq v (by omega), Nat.mod_eq_of_lt hv]

theorem fadd_eq (a b : Nat) (ha : a < 3329) (hb : b < 3329) :
    fadd a b = (a + b) % 3329 := by
  rw [fadd, fnew, reduce_once_eq _ (by omega)]

theorem fsub_eq (a b : Nat) (ha : a < 3329) (hb : b < 3329) :
    fsub a b = (a + 3329 - b) % 3329 := by
  have hcase : (if a < b then a + 3329 - b else a - b) < 6658 := by
    split <;> omega
  rw [fsub, fnew, reduce_once_eq _ hcase]
  split <;> omega

theorem barrett_reduce_eq (x : Nat) (hx : x ≤ 11075584) :
    barrett_reduce x = x % 3329 := by
  rw [barrett_reduce]
  have hshift : (x * 5039) >>> 24 = x * 5039 / 16777216 := by
    rw [Nat.shiftRight_eq_div_pow]
  rw [hshift]
  have hdm := Nat.div_add_mod (x * 5039) 16777216
  have hrlt : x * 5039 % 16777216 < 16777216 := Nat.mod_lt _ (by norm_num)
  set t := x * 5039 / 16777216 with ht
  have htle : 3329 * t ≤ x := by omega
  have htb : x - 3329 * t < 6658 := by omega
  have h1 : t % 4294967296 = t := Nat.mod_eq_of_lt (by omega)
  rw [h1]
  have h2 : t * 3329 % 4294967296 = t * 3329 := Nat.mod_eq_of_lt (by omega)
  rw [h2]
  have h3 : (x + 4294967296 - t * 3329) % 4294967296 = x - t * 3329 := by omega
  rw [h3]
  have h4 : (x - t * 3329) % 65536 = x - t * 3329 := by omega
  rw [h4, fnew, reduce_once_eq _ (by omega)]
  omega

theorem fmul_eq (a b : Nat) (ha : a < 3329) (hb : b < 3329) :
    fmul a b = a * b % 3329 := by
  rw [fmul, barrett_reduce_eq _ (by nlinarith)]

/-! ## Generic read-two/write-two butterflies and their action on segments -/

/-- A butterfly that reads positions `j` and `j + len` and writes `F a b`, `G a b`
back to them. Both NTT butterflies normalise to this shape on reduced inputs. -/
def gButterfly (F G : Nat → Nat → Nat) (len : Nat) (s : List Nat) (j : Nat) : List Nat :=
  (s.set j (F (s.getD j 0) (s.getD (j + len) 0))).set (j + len)
    (G (s.getD j 0) (s.getD (j + len) 0))

/-- A block of `len` generic butterflies at `j = start, …, start + len − 1`. -/
def gBlock (F G : Nat → Nat → Nat) (len start : Nat) (s : List Nat) : List Nat :=
  (List.range len).foldl (fun s2 i => gButterfly F G len s2 (start + i)) s

theorem gButterfly_cons (F G : Nat → Nat → Nat) (len : Nat) (x : Nat) (s : List Nat)
    (j : Nat) : gButterfly F G len (x :: s) (j + 1) = x :: gButterfly F G len s j := by
  have harith : j + 1 + len = (j + len) + 1 := by omega
  rw [gButterfly, gButterfly, harith, List.getD_cons_succ, List.getD_cons_succ,
    List.set_cons_succ, List.set_cons_succ]

theorem gButterfly_append (F G : Nat → Nat → Nat) (len : Nat) (p : List Nat) :
    ∀ (s : List Nat) (j : Nat),
      gButterfly F G len (p ++ s) (p.length + j) = p ++ gButterfly F G len s j := by
  induction p with
  | nil => intro s j; simp
  | cons x xs ih =>
    intro s j
    have harith : (x :: xs).length + j = (xs.length + j) + 1 := by
      simp
      omega
    rw [harith, List.cons_append, gButterfly_cons, ih]
    rfl

theorem gBlock_append (F G : Nat → Nat → Nat) (len : Nat) (p : List Nat)
    (s : List Nat) : gBlock F G len p.length (p ++ s) = p ++ gBlock F G len 0 s := by
  rw [gBlock, gBlock]
  have key : ∀ (l : List Nat) (acc : List Nat),
      l.foldl (fun s2 i => gButterfly F G len s2 (p.length + i)) (p ++ acc) =
        p ++ l.foldl (fun s2 i => gButterfly F G len s2 (0 + i)) acc := by
    intro l
    induction l with
    | nil => intro acc; rfl
    | cons a as ihl =>
      intro acc
      rw [List.foldl_cons, List.foldl_cons, gButterfly_append]
      rw [ihl]
      have h0 : (0 : Nat) + a = a := by omega
      rw [h0]
  exact key (List.range len) s

/-- One generic butterfly applied at the head of a segment pair: the state is
`(a :: su) ++ (zg-prefix stripped)`; formulated for the induction below. -/
theorem gButterfly_head (F G : Nat → Nat → Nat) (len : Nat) (a b : Nat)
    (su mid sv post : List Nat) (hmid : su.length + 1 + mid.length = len) :
    gButterfly F G len (a :: (su ++ (mid ++ (b :: (sv ++ post))))) 0 =
      F a b :: (su ++ (mid ++ (G a b :: (sv ++ post)))) := by
  have hlen : (a :: (su ++ (mid ++ (b :: (sv ++ post))))).getD len 0 = b := by
    have hshape : a :: (su ++ (mid ++ (b :: (sv ++ post)))) =
        ((a :: su) ++ mid) ++ (b :: (sv ++ post)) := by
      simp
    rw [hshape]
    have hl : ((a :: su) ++ mid).length = len := by
      simp
      omega
    have hidx : len = ((a :: su) ++ mid).length + 0 := by omega
    rw [hidx, List.getD_append_right _ _ _ _ (by omega)]
    simp
  have hset : (F a b :: (su ++ (mid ++ (b :: (sv ++ post))))).set len (G a b) =
      F a b :: (su ++ (mid ++ (G a b :: (sv ++ post)))) := by
    have hshape : F a b :: (su ++ (mid ++ (b :: (sv ++ post)))) =
        ((F a b :: su) ++ mid) ++ (b :: (sv ++ post)) := by
      simp
    rw [hshape]
    have hl : ((F a b :: su) ++ mid).length = len := by
      simp
      omega
    have hidx : len = ((F a b :: su) ++ mid).length + 0 := by omega
    have hsetr : ∀ (l1 l2 : List Nat) (x : Nat),
        (l1 ++ l2).set l1.length x = l1 ++ l2.set 0 x := by
      intro l1
      induction l1 with
      | nil => intro l2 x; simp
      | cons y ys ihy =>
          intro l2 x
          rw [List.length_cons, List.cons_append, List.set_cons_succ, ihy]
          rfl
    rw [← hl, hsetr]
    simp
  have h0 : 0 + len = len := by omega
  rw [gButterfly, h0, List.getD_cons_zero, hlen, List.set_cons_zero, hset]

theorem gBlock_seg_aux (F G : Nat → Nat → Nat) (len : Nat) (u v post : List Nat)
    (hu : u.length = len) (hv : v.length = len) :
    ∀ i, i ≤ len →
      (List.range i).foldl (fun s2 t => gButterfly F G len s2 (0 + t))
          (u ++ (v ++ post)) =
        (List.zipWith F u v).take i ++
          (u.drop i ++ ((List.zipWith G u v).take i ++ (v.drop i ++ post))) := by
  intro i
  induction i with
  | zero => intro _; simp
  | succ n ih =>
    intro hle
    rw [List.range_succ, List.foldl_concat, ih (by omega)]
    have hzf : (List.zipWith F u v).length = len := by
      rw [List.length_zipWith, hu, hv]
      omega
    have hzg : (List.zipWith G u v).length = len := by
      rw [List.length_zipWith, hu, hv]
      omega
    have hn : n < len := by omega
    have hnu : n < u.length := by omega
    have hnv : n < v.length := by omega
    have htklen : ((List.zipWith F u v).take n).length = n := by
      rw [List.length_take]
      omega
    have hidx : 0 + n = ((List.zipWith F u v).take n).length + 0 := by omega
    rw [List.drop_eq_getElem_cons hnu, List.drop_eq_getElem_cons hnv]
    simp only [List.cons_append]
    rw [hidx, gButterfly_append]
    have hmid : (u.drop (n + 1)).length + 1 + ((List.zipWith G u v).take n).length
        = len := by
      rw [List.length_drop, List.length_take]
      omega
    rw [gButterfly_head F G len (u[n]) (v[n]) (u.drop (n + 1))
      ((List.zipWith G u v).take n) (v.drop (n + 1)) post hmid]
    have htkF : (List.zipWith F u v).take (n + 1) =
        (List.zipWith F u v).take n ++ [F u[n] v[n]] := by
      rw [List.take_succ, List.getElem?_eq_getElem (by omega)]
      rw [List.getElem_zipWith]
      rfl
    have htkG : (List.zipWith G u v).take (n + 1) =
        (List.zipWith G u v).take n ++ [G u[n] v[n]] := by
      rw [List.take_succ, List.getElem?_eq_getElem (by omega)]
      rw [List.getElem_zipWith]
      rfl
    rw [htkF, htkG]
    simp

/-- A block of generic butterflies rewrites exactly the targeted `2·len` segment:
the first half becomes `zipWith F`, the second `zipWith G`, of the two halves. -/
theorem gBlock_segment (F G : Nat → Nat → Nat) (len : Nat) (pre u v post : List Nat)
    (hu : u.length = len) (hv : v.length = len) :
    gBlock F G len pre.length (pre ++ (u ++ (v ++ post))) =
      pre ++ (List.zipWith F u v ++ (List.zipWith G u v ++ post)) := by
  have h := gBlock_seg_aux F G len u v post hu hv len (by omega)
  have hzf : (List.zipWith F u v).length = len := by
    rw [List.length_zipWith, hu, hv]
    omega
  have hzg : (List.zipWith G u v).length = len := by
    rw [List.length_zipWith, hu, hv]
    omega
  have hfull : gBlock F G len 0 (u ++ (v ++ post)) =
      List.zipWith F u v ++ (List.zipWith G u v ++ post) := by
    rw [gBlock]
    rw [h]
    rw [List.take_of_length_le (by omega), List.take_of_length_le (by omega),
      List.drop_eq_nil_of_le (by omega), List.drop_eq_nil_of_le (by omega)]
    simp
  rw [gBlock_append, hfull]

/-! ## The code butterflies are generic butterflies on reduced states -/

theorem getD_lt_3329 (s : List Nat) (hs : ∀ x ∈ s, x < 3329) (i : Nat) :
    s.getD i 0 < 3329 := by
  by_cases h : i < s.length
  · rw [List.getD_eq_getElem s 0 h]
    exact hs _ (List.getElem_mem h)
  · rw [List.getD_eq_default s 0 (by omega)]
    omega

theorem getD_set_ne (s : List Nat) (i j : Nat) (x d : Nat) (hij : i ≠ j) :
    (s.set i x).getD j d = s.getD j d := by
  rw [List.getD_eq_getElem?_getD, List.getD_eq_getElem?_getD,
    List.getElem?_set_ne hij]

theorem root_lt (k : Nat) : kNttRoots.getD k 0 < 3329 := by
  by_cases h : k < 128
  · have hchk := ballCheck_sound (fun i => kNttRoots.getD i 0 < 3329) 128 0 (by decide) k h
    simpa using hchk
  · rw [List.getD_eq_default]
    · omega
    · have : kNttRoots.length = 128 := by
        rw [kNttRoots, List.length_map, List.length_range]
      omega

/-- On a reduced state, the Cooley-Tukey butterfly of `NttElement::ntt` is the
generic butterfly of `mbf1`/`mbf2`. -/
theorem nttButterfly_norm (z len : Nat) (s : List Nat) (j : Nat) (hz : z < 3329)
    (hs : ∀ x ∈ s, x < 3329) (hlen : 0 < len) :
    nttButterfly z len s j = gButterfly (mbf1 z) (mbf2 z) len s j := by
  have ha := getD_lt_3329 s hs j
  have hb := getD_lt_3329 s hs (j + len)
  have ht : fmul z (s.getD (j + len) 0) % 3329 = z * s.getD (j + len) 0 % 3329 := by
    rw [fmul_eq z _ hz hb, Nat.mod_mod_of_dvd _ (by omega)]
  have htlt : z * s.getD (j + len) 0 % 3329 < 3329 := Nat.mod_lt _ (by omega)
  rw [nttButterfly, ht, fnew_id _ htlt]
  rw [getD_set_ne s (j + len) j _ _ (by omega)]
  rw [fsub_eq _ _ ha htlt, fadd_assign]
  rw [gButterfly, List.set_comm _ _ _ (by omega)]
  rfl

/-- On a reduced state, the Gentleman-Sande butterfly of `NttElement::ntt_inv` is
the generic butterfly of `ibf1`/`ibf2 z`. -/
theorem nttInvButterfly_norm (z len : Nat) (s : List Nat) (j : Nat) (hz : z < 3329)
    (hs : ∀ x ∈ s, x < 3329) (hlen : 0 < len) :
    nttInvButterfly z len s j = gButterfly ibf1 (ibf2 z) len s j := by
  have ha := getD_lt_3329 s hs j
  have hb := getD_lt_3329 s hs (j + len)
  rw [nttInvButterfly]
  rw [getD_set_ne s j (j + len) _ _ (by omega)]
  have hsub : fsub (s.getD (j + len) 0) (s.getD j 0) =
      (s.getD (j + len) 0 + 3329 - s.getD j 0) % 3329 := fsub_eq _ _ hb ha
  have hsublt : (s.getD (j + len) 0 + 3329 - s.getD j 0) % 3329 < 3329 :=
    Nat.mod_lt _ (by omega)
  rw [hsub, fmul_eq z _ hz hsublt]
  have hmlt : z * ((s.getD (j + len) 0 + 3329 - s.getD j 0) % 3329) % 3329 < 3329 :=
    Nat.mod_lt _ (by omega)
  rw [fnew_id _ hmlt, fadd_eq _ _ ha hb]
  rfl

/-- Generic butterflies of reducing maps keep every entry `< q`. -/
theorem gButterfly_bound (F G : Nat → Nat → Nat)
    (hF : ∀ a b, F a b < 3329) (hG : ∀ a b, G a b < 3329) (len : Nat) (s : List Nat)
    (j : Nat) (hs : ∀ x ∈ s, x < 3329) :
    ∀ x ∈ gButterfly F G len s j, x < 3329 := by
  intro x hx
  rw [gButterfly] at hx
  rcases List.mem_or_eq_of_mem_set hx with hx2 | hx2
  · rcases List.mem_or_eq_of_mem_set hx2 with hx3 | hx3
    · exact hs x hx3
    · rw [hx3]
      exact hF _ _
  · rw [hx2]
    exact hG _ _

theorem foldl_butterfly_congr (f g : List Nat → Nat → List Nat)
    (hfg : ∀ s j, (∀ x ∈ s, x < 3329) → f s j = g s j)
    (hg : ∀ s j, (∀ x ∈ s, x < 3329) → ∀ x ∈ g s j, x < 3329) :
    ∀ (l : List Nat) (s : List Nat), (∀ x ∈ s, x < 3329) →
      l.foldl f s = l.foldl g s := by
  intro l
  induction l with
  | nil => intro s _; rfl
  | cons a as ih =>
    intro s hs
    rw [List.foldl_cons, List.foldl_cons, hfg s a hs]
    exact ih _ (hg s a hs)

theorem mbf1_lt (z a b : Nat) : mbf1 z a b < 3329 := Nat.mod_lt _ (by omega)

theorem mbf2_lt (z a b : Nat) : mbf2 z a b < 3329 := Nat.mod_lt _ (by omega)

theorem ibf1_lt (a b : Nat) : ibf1 a b < 3329 := Nat.mod_lt _ (by omega)

theorem ibf2_lt (z a b : Nat) : ibf2 z a b < 3329 := Nat.mod_lt _ (by omega)

theorem nttBlock_eq_gBlock (z len start : Nat) (s : List Nat) (hz : z < 3329)
    (hlen : 0 < len) (hs : ∀ x ∈ s, x < 3329) :
    nttBlock z len start s = gBlock (mbf1 z) (mbf2 z) len start s := by
  rw [nttBlock, gBlock]
  exact foldl_butterfly_congr (fun s2 i => nttButterfly z len s2 (start + i))
    (fun s2 i => gButterfly (mbf1 z) (mbf2 z) len s2 (start + i))
    (fun s2 j hs2 => nttButterfly_norm z len s2 (start + j) hz hs2 hlen)
    (fun s2 j hs2 => gButterfly_bound _ _ (mbf1_lt z) (mbf2_lt z) len s2 (start + j) hs2)
    (List.range len) s hs

theorem nttInvBlock_eq_gBlock (z len start : Nat) (s : List Nat) (hz : z < 3329)
    (hlen : 0 < len) (hs : ∀ x ∈ s, x < 3329) :
    nttInvBlock z len start s = gBlock ibf1 (ibf2 z) len start s := by
  rw [nttInvBlock, gBlock]
  exact foldl_butterfly_congr (fun s2 i => nttInvButterfly z len s2 (start + i))
    (fun s2 i => gButterfly ibf1 (ibf2 z) len s2 (start + i))
    (fun s2 j hs2 => nttInvButterfly_norm z len s2 (start + j) hz hs2 hlen)
    (fun s2 j hs2 => gButterfly_bound _ _ ibf1_lt (ibf2_lt z) len s2 (start + j) hs2)
    (List.range len) s hs

/-! ## A whole layer, as a transformation of the list of blocks -/

/-- The forward layer `len` of `NttElement::ntt`, seen per block: block `j` (root
index `j`, incrementing) splits into its `zipWith mbf1` and `zipWith mbf2` halves. -/
def splitSegsF (len : Nat) : Nat → List (List Nat) → List (List Nat)
  | _, [] => []
  | j, seg :: rest =>
    let z := kNttRoots.getD j 0
    List.zipWith (mbf1 z) (seg.take len) (seg.drop len) ::
      (List.zipWith (mbf2 z) (seg.take len) (seg.drop len) :: splitSegsF len (j + 1) rest)

/-- The inverse layer `len` of `NttElement::ntt_inv`, per block; the root index
decrements. -/
def splitSegsI (len : Nat) : Nat → List (List Nat) → List (List Nat)
  | _, [] => []
  | j, seg :: rest =>
    let z := kNttRoots.getD j 0
    List.zipWith ibf1 (seg.take len) (seg.drop len) ::
      (List.zipWith (ibf2 z) (seg.take len) (seg.drop len) :: splitSegsI len (j - 1) rest)

theorem zipWith_mem_bound (f : Nat → Nat → Nat) (hf : ∀ a b, f a b < 3329) :
    ∀ (u v : List Nat), ∀ x ∈ List.zipWith f u v, x < 3329 := by
  intro u
  induction u with
  | nil => intro v x hx; simp at hx
  | cons a as ih =>
    intro v x hx
    cases v with
    | nil => simp at hx
    | cons b bs =>
      rw [List.zipWith_cons_cons] at hx
      rcases List.mem_cons.mp hx with h | h
      · rw [h]; exact hf a b
      · exact ih bs x h

theorem flatten_length_const (c : Nat) :
    ∀ (L : List (List Nat)), (∀ l ∈ L, l.length = c) → L.flatten.length = c * L.length := by
  intro L
  induction L with
  | nil => intro _; simp
  | cons l ls ih =>
    intro h
    rw [List.flatten_cons, List.length_append, h l (by simp),
      ih (fun x hx => h x (by simp [hx])), List.length_cons]
    ring

theorem splitSegsF_append (len : Nat) :
    ∀ (l1 l2 : List (List Nat)) (j : Nat),
      splitSegsF len j (l1 ++ l2) = splitSegsF len j l1 ++ splitSegsF len (j + l1.length) l2 := by
  intro l1
  induction l1 with
  | nil => intro l2 j; simp [splitSegsF]
  | cons seg rest ih =>
    intro l2 j
    rw [List.cons_append, splitSegsF, splitSegsF, ih]
    simp only [List.length_cons, List.cons_append]
    have : j + (rest.length + 1) = j + 1 + rest.length := by omega
    rw [this]

theorem splitSegsI_append (len : Nat) :
    ∀ (l1 l2 : List (List Nat)) (j : Nat),
      splitSegsI len j (l1 ++ l2) = splitSegsI len j l1 ++ splitSegsI len (j - l1.length) l2 := by
  intro l1
  induction l1 with
  | nil => intro l2 j; simp [splitSegsI]
  | cons seg rest ih =>
    intro l2 j
    rw [List.cons_append, splitSegsI, splitSegsI, ih]
    simp only [List.length_cons, List.cons_append]
    have : j - (rest.length + 1) = j - 1 - rest.length := by omega
    rw [this]

theorem splitSegsF_each_length (len : Nat) :
    ∀ (segs : List (List Nat)) (j : Nat), (∀ seg ∈ segs, seg.length = 2 * len) →
      ∀ l ∈ splitSegsF len j segs, l.length = len := by
  intro segs
  induction segs with
  | nil => intro j _ l hl; simp [splitSegsF] at hl
  | cons seg rest ih =>
    intro j hs l hl
    have hseg : seg.length = 2 * len := hs seg (by simp)
    rw [splitSegsF] at hl
    have hzip : ∀ (f : Nat → Nat → Nat),
        (List.zipWith f (seg.take len) (seg.drop len)).length = len := by
      intro f
      rw [List.length_zipWith, List.length_take, List.length_drop]
      omega
    rcases List.mem_cons.mp hl with h | h
    · rw [h]; exact hzip _
    · rcases List.mem_cons.mp h with h2 | h2
      · rw [h2]; exact hzip _
      · exact ih (j + 1) (fun x hx => hs x (by simp [hx])) l h2

theorem splitSegsI_each_length (len : Nat) :
    ∀ (segs : List (List Nat)) (j : Nat), (∀ seg ∈ segs, seg.length = 2 * len) →
      ∀ l ∈ splitSegsI len j segs, l.length = len := by
  intro segs
  induction segs with
  | nil => intro j _ l hl; simp [splitSegsI] at hl
  | cons seg rest ih =>
    intro j hs l hl
    have hseg : seg.length = 2 * len := hs seg (by simp)
    rw [splitSegsI] at hl
    have hzip : ∀ (f : Nat → Nat → Nat),
        (List.zipWith f (seg.take len) (seg.drop len)).length = len := by
      intro f
      rw [List.length_zipWith, List.length_take, List.length_drop]
      omega
    rcases List.mem_cons.mp hl with h | h
    · rw [h]; exact hzip _
    · rcases List.mem_cons.mp h with h2 | h2
      · rw [h2]; exact hzip _
      · exact ih (j - 1) (fun x hx => hs x (by simp [hx])) l h2

theorem splitSegsF_bound (len : Nat) :
    ∀ (segs : List (List Nat)) (j : Nat),
      ∀ l ∈ splitSegsF len j segs, ∀ x ∈ l, x < 3329 := by
  intro segs
  induction segs with
  | nil => intro j l hl; simp [splitSegsF] at hl
  | cons seg rest ih =>
    intro j l hl
    rw [splitSegsF] at hl
    rcases List.mem_cons.mp hl with h | h
    · rw [h]; exact zipWith_mem_bound _ (mbf1_lt _) _ _
    · rcases List.mem_cons.mp h with h2 | h2
      · rw [h2]; exact zipWith_mem_bound _ (mbf2_lt _) _ _
      · exact ih (j + 1) l h2

theorem splitSegsF_length (len : Nat) :
    ∀ (segs : List (List Nat)) (j : Nat), (splitSegsF len j segs).length = 2 * segs.length := by
  intro segs
  induction segs with
  | nil => intro j; rfl
  | cons seg rest ih =>
    intro j
    rw [splitSegsF, List.length_cons, List.length_cons, ih, List.length_cons]
    ring

theorem splitSegsI_length (len : Nat) :
    ∀ (segs : List (List Nat)) (j : Nat), (splitSegsI len j segs).length = 2 * segs.length := by
  intro segs
  induction segs with
  | nil => intro j; rfl
  | cons seg rest ih =>
    intro j
    rw [splitSegsI, List.length_cons, List.length_cons, ih, List.length_cons]
    ring

theorem splitSegsI_bound (len : Nat) :
    ∀ (segs : List (List Nat)) (j : Nat),
      ∀ l ∈ splitSegsI len j segs, ∀ x ∈ l, x < 3329 := by
  intro segs
  induction segs with
  | nil => intro j l hl; simp [splitSegsI] at hl
  | cons seg rest ih =>
    intro j l hl
    rw [splitSegsI] at hl
    rcases List.mem_cons.mp hl with h | h
    · rw [h]; exact zipWith_mem_bound _ ibf1_lt _ _
    · rcases List.mem_cons.mp h with h2 | h2
      · rw [h2]; exact zipWith_mem_bound _ (ibf2_lt _) _ _
      · exact ih (j - 1) l h2

theorem nttLayer_eq (len : Nat) (hlen : 0 < len) (segs : List (List Nat)) (k0 : Nat)
    (hsize : ∀ seg ∈ segs, seg.length = 2 * len)
    (hbound : ∀ seg ∈ segs, ∀ x ∈ seg, x < 3329)
    (hcount : segs.length = 256 / (2 * len)) :
    nttLayer (segs.flatten, k0) len =
      ((splitSegsF len k0 segs).flatten, k0 + segs.length) := by
  rw [nttLayer, ← hcount]
  have aux : ∀ n, n ≤ segs.length →
      (List.range n).foldl
        (fun st2 b =>
          (nttBlock (kNttRoots.getD st2.2 0) len (2 * len * b) st2.1, st2.2 + 1))
        (segs.flatten, k0) =
      ((splitSegsF len k0 (segs.take n) ++ segs.drop n).flatten, k0 + n) := by
    intro n
    induction n with
    | zero => intro _; simp [splitSegsF]
    | succ m ihm =>
      intro hle
      rw [List.range_succ, List.foldl_concat, ihm (by omega)]
      simp only []
      have hm : m < segs.length := by omega
      have hsegm : segs[m].length = 2 * len := hsize _ (List.getElem_mem hm)
      have htkm : (segs.take m).length = m := by
        rw [List.length_take]
        omega
      have hprelen : ((splitSegsF len k0 (segs.take m)).flatten).length = 2 * len * m := by
        rw [flatten_length_const len _
          (splitSegsF_each_length len (segs.take m) k0
            (fun seg hseg => hsize seg (List.take_subset m segs hseg))),
          splitSegsF_length, htkm]
        ring
      have hu : (segs[m].take len).length = len := by
        rw [List.length_take]
        omega
      have hv : (segs[m].drop len).length = len := by
        rw [List.length_drop]
        omega
      have hstate : (splitSegsF len k0 (segs.take m) ++ segs.drop m).flatten =
          (splitSegsF len k0 (segs.take m)).flatten ++
            (segs[m].take len ++ (segs[m].drop len ++ (segs.drop (m + 1)).flatten)) := by
        rw [List.drop_eq_getElem_cons hm, List.flatten_append, List.flatten_cons]
        conv_lhs => rw [← List.take_append_drop len segs[m]]
        rw [List.append_assoc]
      rw [hstate]
      have hbnd : ∀ x ∈ (splitSegsF len k0 (segs.take m)).flatten ++
          (segs[m].take len ++ (segs[m].drop len ++ (segs.drop (m + 1)).flatten)),
          x < 3329 := by
        intro x hx
        rcases List.mem_append.mp hx with h | h
        · obtain ⟨l, hl, hxl⟩ := List.mem_flatten.mp h
          exact splitSegsF_bound len (segs.take m) k0 l hl x hxl
        · rcases List.mem_append.mp h with h2 | h2
          · exact hbound _ (List.getElem_mem hm) x (List.take_subset _ _ h2)
          · rcases List.mem_append.mp h2 with h3 | h3
            · exact hbound _ (List.getElem_mem hm) x (List.drop_subset _ _ h3)
            · obtain ⟨l, hl, hxl⟩ := List.mem_flatten.mp h3
              exact hbound l (List.drop_subset _ _ hl) x hxl
      rw [nttBlock_eq_gBlock _ _ _ _ (root_lt (k0 + m)) hlen hbnd]
      have hstart : 2 * len * m = ((splitSegsF len k0 (segs.take m)).flatten).length := by
        omega
      rw [hstart, gBlock_segment _ _ len _ _ _ _ hu hv]
      have htksucc : segs.take (m + 1) = segs.take m ++ [segs[m]] := by
        rw [List.take_succ, List.getElem?_eq_getElem hm]
        rfl
      have hsplit : splitSegsF len k0 (segs.take (m + 1)) =
          splitSegsF len k0 (segs.take m) ++
            [List.zipWith (mbf1 (kNttRoots.getD (k0 + m) 0)) (segs[m].take len)
                (segs[m].drop len),
              List.zipWith (mbf2 (kNttRoots.getD (k0 + m) 0)) (segs[m].take len)
                (segs[m].drop len)] := by
        rw [htksucc, splitSegsF_append, htkm]
        rfl
      rw [hsplit, Prod.mk.injEq]
      constructor
      · simp
      · omega
  have h := aux segs.length (by omega)
  rw [List.take_of_length_le (by omega), List.drop_eq_nil_of_le (by omega)] at h
  rw [h]
  simp

theorem nttInvLayer_eq (len : Nat) (hlen : 0 < len) (segs : List (List Nat)) (k0 : Nat)
    (hsize : ∀ seg ∈ segs, seg.length = 2 * len)
    (hbound : ∀ seg ∈ segs, ∀ x ∈ seg, x < 3329)
    (hcount : segs.length = 256 / (2 * len)) :
    nttInvLayer (segs.flatten, k0) len =
      ((splitSegsI len k0 segs).flatten, k0 - segs.length) := by
  rw [nttInvLayer, ← hcount]
  have aux : ∀ n, n ≤ segs.length →
      (List.range n).foldl
        (fun st2 b =>
          (nttInvBlock (kNttRoots.getD st2.2 0) len (2 * len * b) st2.1, st2.2 - 1))
        (segs.flatten, k0) =
      ((splitSegsI len k0 (segs.take n) ++ segs.drop n).flatten, k0 - n) := by
    intro n
    induction n with
    | zero => intro _; simp [splitSegsI]
    | succ m ihm =>
      intro hle
      rw [List.range_succ, List.foldl_concat, ihm (by omega)]
      simp only []
      have hm : m < segs.length := by omega
      have hsegm : segs[m].length = 2 * len := hsize _ (List.getElem_mem hm)
      have htkm : (segs.take m).length = m := by
        rw [List.length_take]
        omega
      have hprelen : ((splitSegsI len k0 (segs.take m)).flatten).length = 2 * len * m := by
        rw [flatten_length_const len _
          (splitSegsI_each_length len (segs.take m) k0
            (fun seg hseg => hsize seg (List.take_subset m segs hseg))),
          splitSegsI_length, htkm]
        ring
      have hu : (segs[m].take len).length = len := by
        rw [List.length_take]
        omega
      have hv : (segs[m].drop len).length = len := by
        rw [List.length_drop]
        omega
      have hstate : (splitSegsI len k0 (segs.take m) ++ segs.drop m).flatten =
          (splitSegsI len k0 (segs.take m)).flatten ++
            (segs[m].take len ++ (segs[m].drop len ++ (segs.drop (m + 1)).flatten)) := by
        rw [List.drop_eq_getElem_cons hm, List.flatten_append, List.flatten_cons]
        conv_lhs => rw [← List.take_append_drop len segs[m]]
        rw [List.append_assoc]
      rw [hstate]
      have hbnd : ∀ x ∈ (splitSegsI len k0 (segs.take m)).flatten ++
          (segs[m].take len ++ (segs[m].drop len ++ (segs.drop (m + 1)).flatten)),
          x < 3329 := by
        intro x hx
        rcases List.mem_append.mp hx with h | h
        · obtain ⟨l, hl, hxl⟩ := List.mem_flatten.mp h
          exact splitSegsI_bound len (segs.take m) k0 l hl x hxl
        · rcases List.mem_append.mp h with h2 | h2
          · exact hbound _ (List.getElem_mem hm) x (List.take_subset _ _ h2)
          · rcases List.mem_append.mp h2 with h3 | h3
            · exact hbound _ (List.getElem_mem hm) x (List.drop_subset _ _ h3)
            · obtain ⟨l, hl, hxl⟩ := List.mem_flatten.mp h3
              exact hbound l (List.drop_subset _ _ hl) x hxl
      rw [nttInvBlock_eq_gBlock _ _ _ _ (root_lt (k0 - m)) hlen hbnd]
      have hstart : 2 * len * m = ((splitSegsI len k0 (segs.take m)).flatten).length := by
        omega
      rw [hstart, gBlock_segment _ _ len _ _ _ _ hu hv]
      have htksucc : segs.take (m + 1) = segs.take m ++ [segs[m]] := by
        rw [List.take_succ, List.getElem?_eq_getElem hm]
        rfl
      have hsplit : splitSegsI len k0 (segs.take (m + 1)) =
          splitSegsI len k0 (segs.take m) ++
            [List.zipWith ibf1 (segs[m].take len) (segs[m].drop len),
              List.zipWith (ibf2 (kNttRoots.getD (k0 - m) 0)) (segs[m].take len)
                (segs[m].drop len)] := by
        rw [htksucc, splitSegsI_append, htkm]
        rfl
      rw [hsplit, Prod.mk.injEq]
      constructor
      · simp
      · omega
  have h := aux segs.length (by omega)
  rw [List.take_of_length_le (by omega), List.drop_eq_nil_of_le (by omega)] at h
  rw [h]
  simp

/-! ## The iterated layers compute the recursive transforms -/

/-- Map with a running index over a list of segments. -/
def mapWithIdx (f : Nat → List Nat → List Nat) : Nat → List (List Nat) → List (List Nat)
  | _, [] => []
  | i, seg :: rest => f i seg :: mapWithIdx f (i + 1) rest

theorem mapWithIdx_congr (f g : Nat → List Nat → List Nat)
    (h : ∀ i x, f i x = g i x) :
    ∀ (l : List (List Nat)) (i : Nat), mapWithIdx f i l = mapWithIdx g i l := by
  intro l
  induction l with
  | nil => intro i; rfl
  | cons seg rest ih =>
    intro i
    rw [mapWithIdx, mapWithIdx, h i seg, ih (i + 1)]

theorem mapWithIdx_shift (f : Nat → List Nat → List Nat) :
    ∀ (l : List (List Nat)) (i j : Nat),
      mapWithIdx f (i + j) l = mapWithIdx (fun n x => f (n + j) x) i l := by
  intro l
  induction l with
  | nil => intro i j; rfl
  | cons seg rest ih =>
    intro i j
    rw [mapWithIdx, mapWithIdx]
    have harith : i + j + 1 = (i + 1) + j := by omega
    rw [harith, ih (i + 1) j]

theorem fwdRec_length : ∀ (t kk : Nat) (s : List Nat), s.length = 2 ^ (t + 1) →
    (fwdRec t kk s).length = 2 ^ (t + 1) := by
  intro t
  induction t with
  | zero => intro kk s hs; rw [fwdRec]; exact hs
  | succ m ih =>
    intro kk s hs
    rw [fwdRec]
    have htk : (s.take (2 ^ (m + 1))).length = 2 ^ (m + 1) := by
      rw [List.length_take]
      have := Nat.pow_lt_pow_right (a := 2) (by omega) (Nat.lt_succ_self (m + 1))
      omega
    have hdr : (s.drop (2 ^ (m + 1))).length = 2 ^ (m + 1) := by
      rw [List.length_drop, hs]
      have : 2 ^ (m + 1 + 1) = 2 ^ (m + 1) + 2 ^ (m + 1) := by ring
      omega
    have hz : ∀ (f : Nat → Nat → Nat),
        (List.zipWith f (s.take (2 ^ (m + 1))) (s.drop (2 ^ (m + 1)))).length
          = 2 ^ (m + 1) := by
      intro f
      rw [List.length_zipWith, htk, hdr]
      omega
    rw [List.length_append, ih _ _ (hz _), ih _ _ (hz _)]
    ring

theorem invRec_length : ∀ (t kk : Nat) (s : List Nat), s.length = 2 ^ (t + 1) →
    (invRec t kk s).length = 2 ^ (t + 1) := by
  intro t
  induction t with
  | zero => intro kk s hs; rw [invRec]; exact hs
  | succ m ih =>
    intro kk s hs
    rw [invRec]
    have htk : (s.take (2 ^ (m + 1))).length = 2 ^ (m + 1) := by
      rw [List.length_take]
      have := Nat.pow_lt_pow_right (a := 2) (by omega) (Nat.lt_succ_self (m + 1))
      omega
    have hdr : (s.drop (2 ^ (m + 1))).length = 2 ^ (m + 1) := by
      rw [List.length_drop, hs]
      have : 2 ^ (m + 1 + 1) = 2 ^ (m + 1) + 2 ^ (m + 1) := by ring
      omega
    rw [List.length_append, List.length_zipWith, List.length_zipWith,
      ih _ _ htk, ih _ _ hdr]
    have : 2 ^ (m + 1 + 1) = 2 ^ (m + 1) + 2 ^ (m + 1) := by ring
    omega

theorem invRec_bound : ∀ (t kk : Nat) (s : List Nat), (∀ x ∈ s, x < 3329) →
    ∀ x ∈ invRec t kk s, x < 3329 := by
  intro t
  induction t with
  | zero => intro kk s hs; rw [invRec]; exact hs
  | succ m ih =>
    intro kk s hs x hx
    rw [invRec] at hx
    rcases List.mem_append.mp hx with h | h
    · exact zipWith_mem_bound _ ibf1_lt _ _ x h
    · exact zipWith_mem_bound _ (ibf2_lt _) _ _ x h

/-- The split of a forward layer, fed into the next levels of the recursion, is the
recursion at the previous level: heap child indices `2·(j+i)` and `2·(j+i)+1`. -/
theorem splitSegsF_fwdRec (t : Nat) :
    ∀ (segs : List (List Nat)) (j : Nat),
      (mapWithIdx (fun i seg => fwdRec t (2 * j + i) seg) 0
          (splitSegsF (2 ^ (t + 1)) j segs)).flatten =
        (mapWithIdx (fun i seg => fwdRec (t + 1) (j + i) seg) 0 segs).flatten := by
  intro segs
  induction segs with
  | nil => intro j; rfl
  | cons seg rest ih =>
    intro j
    rw [splitSegsF]
    rw [mapWithIdx, mapWithIdx, mapWithIdx]
    have hshift : mapWithIdx (fun i sg => fwdRec t (2 * j + i) sg) 2
        (splitSegsF (2 ^ (t + 1)) (j + 1) rest) =
        mapWithIdx (fun i sg => fwdRec t (2 * (j + 1) + i) sg) 0
          (splitSegsF (2 ^ (t + 1)) (j + 1) rest) := by
      have h2 : (2 : Nat) = 0 + 2 := by omega
      rw [h2, mapWithIdx_shift]
      exact mapWithIdx_congr _ _
        (fun i x => by
          have harith : 2 * j + (i + 2) = 2 * (j + 1) + i := by ring
          rw [harith]) _ _
    rw [hshift, List.flatten_cons, List.flatten_cons, ih (j + 1)]
    rw [List.flatten_cons]
    have hf : fwdRec (t + 1) (j + 0) seg =
        fwdRec t (2 * j + 0) (List.zipWith (mbf1 (kNttRoots.getD j 0))
            (seg.take (2 ^ (t + 1))) (seg.drop (2 ^ (t + 1)))) ++
          fwdRec t (2 * j + 1) (List.zipWith (mbf2 (kNttRoots.getD j 0))
            (seg.take (2 ^ (t + 1))) (seg.drop (2 ^ (t + 1)))) := by
      have hj0 : j + 0 = j := by omega
      have hj2 : 2 * j + 0 = 2 * j := by omega
      rw [hj0, hj2, fwdRec]
    rw [hf]
    have hshift2 : mapWithIdx (fun i sg => fwdRec (t + 1) (j + i) sg) 1 rest =
        mapWithIdx (fun i sg => fwdRec (t + 1) (j + 1 + i) sg) 0 rest := by
      have h1 : (1 : Nat) = 0 + 1 := by omega
      rw [h1, mapWithIdx_shift]
      exact mapWithIdx_congr _ _
        (fun i x => by
          have harith : j + (i + 1) = j + 1 + i := by ring
          rw [harith]) _ _
    rw [hshift2]
    simp [List.append_assoc]

theorem mapWithIdx_length (f : Nat → List Nat → List Nat) :
    ∀ (l : List (List Nat)) (i : Nat), (mapWithIdx f i l).length = l.length := by
  intro l
  induction l with
  | nil => intro i; rfl
  | cons seg rest ih =>
    intro i
    rw [mapWithIdx, List.length_cons, List.length_cons, ih]

theorem mapWithIdx_mem (f : Nat → List Nat → List Nat) :
    ∀ (l : List (List Nat)) (i : Nat), ∀ x ∈ mapWithIdx f i l,
      ∃ n sg, sg ∈ l ∧ x = f n sg := by
  intro l
  induction l with
  | nil => intro i x hx; exact absurd hx (List.not_mem_nil x)
  | cons seg rest ih =>
    intro i x hx
    rw [mapWithIdx] at hx
    rcases List.mem_cons.mp hx with h | h
    · exact ⟨i, seg, List.mem_cons_self _ _, h⟩
    · obtain ⟨n, sg, hsg, hx2⟩ := ih (i + 1) x h
      exact ⟨n, sg, List.mem_cons_of_mem _ hsg, hx2⟩

/-- Splitting every segment into its two halves, flattening unchanged. -/
def halveSegs (len : Nat) : List (List Nat) → List (List Nat)
  | [] => []
  | seg :: rest => seg.take len :: (seg.drop len :: halveSegs len rest)

theorem halveSegs_flatten (len : Nat) :
    ∀ (segs : List (List Nat)), (halveSegs len segs).flatten = segs.flatten := by
  intro segs
  induction segs with
  | nil => rfl
  | cons seg rest ih =>
    rw [halveSegs, List.flatten_cons, List.flatten_cons, ih, ← List.append_assoc,
      List.take_append_drop, List.flatten_cons]

theorem halveSegs_length (len : Nat) :
    ∀ (segs : List (List Nat)), (halveSegs len segs).length = 2 * segs.length := by
  intro segs
  induction segs with
  | nil => rfl
  | cons seg rest ih =>
    rw [halveSegs, List.length_cons, List.length_cons, ih, List.length_cons]
    ring

theorem halveSegs_each_length (len : Nat) :
    ∀ (segs : List (List Nat)), (∀ s ∈ segs, s.length = 2 * len) →
      ∀ l ∈ halveSegs len segs, l.length = len := by
  intro segs
  induction segs with
  | nil => intro _ l hl; exact absurd hl (List.not_mem_nil l)
  | cons seg rest ih =>
    intro hs l hl
    have hseg : seg.length = 2 * len := hs seg (List.mem_cons_self _ _)
    rw [halveSegs] at hl
    rcases List.mem_cons.mp hl with h | h
    · rw [h, List.length_take]
      omega
    · rcases List.mem_cons.mp h with h2 | h2
      · rw [h2, List.length_drop]
        omega
      · exact ih (fun s hs2 => hs s (List.mem_cons_of_mem _ hs2)) l h2

theorem halveSegs_bound (len : Nat) :
    ∀ (segs : List (List Nat)), (∀ s ∈ segs, ∀ x ∈ s, x < 3329) →
      ∀ l ∈ halveSegs len segs, ∀ x ∈ l, x < 3329 := by
  intro segs
  induction segs with
  | nil => intro _ l hl; exact absurd hl (List.not_mem_nil l)
  | cons seg rest ih =>
    intro hs l hl x hx
    rw [halveSegs] at hl
    rcases List.mem_cons.mp hl with h | h
    · exact hs seg (List.mem_cons_self _ _) x (List.take_subset _ _ (h ▸ hx))
    · rcases List.mem_cons.mp h with h2 | h2
      · exact hs seg (List.mem_cons_self _ _) x (List.drop_subset _ _ (h2 ▸ hx))
      · exact ih (fun s hs2 => hs s (List.mem_cons_of_mem _ hs2)) l h2 x hx

/-- Running consecutive heap nodes over the halved segments is, flatten-wise, the
paired form: each original segment contributes its two children side by side. -/
theorem mapWithIdx_halveSegs (t : Nat) :
    ∀ (segs : List (List Nat)) (j : Nat),
      (mapWithIdx (fun i sg => invRec t (2 * j + i) sg) 0
          (halveSegs (2 ^ (t + 1)) segs)).flatten =
        (mapWithIdx (fun i sg =>
          invRec t (2 * (j + i)) (sg.take (2 ^ (t + 1))) ++
            invRec t (2 * (j + i) + 1) (sg.drop (2 ^ (t + 1)))) 0 segs).flatten := by
  intro segs
  induction segs with
  | nil => intro j; rfl
  | cons seg rest ih =>
    intro j
    rw [halveSegs, mapWithIdx, mapWithIdx, mapWithIdx]
    have hshift : mapWithIdx (fun i sg => invRec t (2 * j + i) sg) 2
        (halveSegs (2 ^ (t + 1)) rest) =
        mapWithIdx (fun i sg => invRec t (2 * (j + 1) + i) sg) 0
          (halveSegs (2 ^ (t + 1)) rest) := by
      have h2 : (2 : Nat) = 0 + 2 := by omega
      rw [h2, mapWithIdx_shift]
      exact mapWithIdx_congr _ _
        (fun i x => by
          have harith : 2 * j + (i + 2) = 2 * (j + 1) + i := by ring
          rw [harith]) _ _
    rw [hshift, List.flatten_cons, List.flatten_cons, ih (j + 1), List.flatten_cons]
    have hshift2 : mapWithIdx (fun i sg =>
        invRec t (2 * (j + i)) (sg.take (2 ^ (t + 1))) ++
          invRec t (2 * (j + i) + 1) (sg.drop (2 ^ (t + 1)))) 1 rest =
        mapWithIdx (fun i sg =>
          invRec t (2 * (j + 1 + i)) (sg.take (2 ^ (t + 1))) ++
            invRec t (2 * (j + 1 + i) + 1) (sg.drop (2 ^ (t + 1)))) 0 rest := by
      have h1 : (1 : Nat) = 0 + 1 := by omega
      rw [h1, mapWithIdx_shift]
      exact mapWithIdx_congr _ _
        (fun i x => by
          have harith : j + (i + 1) = j + 1 + i := by ring
          rw [harith]) _ _
    rw [hshift2]
    simp [List.append_assoc]

/-- The inverse layer applied to the paired children outputs is, flatten-wise, the
next level of the inverse recursion; the decrementing root counter starting at
`3·2^(6−t) − 1 − n` meets exactly the root index `invRec` assigns to each node. -/
theorem splitSegsI_invRec (t : Nat) :
    ∀ (segs : List (List Nat)) (n : Nat),
      (∀ seg ∈ segs, seg.length = 2 ^ (t + 1 + 1)) →
      (splitSegsI (2 ^ (t + 1)) (3 * 2 ^ (6 - t) - 1 - n)
          (mapWithIdx (fun i sg =>
            invRec t (2 * (n + i)) (sg.take (2 ^ (t + 1))) ++
              invRec t (2 * (n + i) + 1) (sg.drop (2 ^ (t + 1)))) 0 segs)).flatten =
        (mapWithIdx (fun i sg => invRec (t + 1) (n + i) sg) 0 segs).flatten := by
  intro segs
  induction segs with
  | nil => intro n _; rfl
  | cons seg rest ih =>
    intro n hs
    have hseg : seg.length = 2 ^ (t + 1 + 1) := hs seg (List.mem_cons_self _ _)
    have htk : (seg.take (2 ^ (t + 1))).length = 2 ^ (t + 1) := by
      rw [List.length_take]
      have := Nat.pow_lt_pow_right (a := 2) (by omega) (Nat.lt_succ_self (t + 1))
      omega
    have hdr : (seg.drop (2 ^ (t + 1))).length = 2 ^ (t + 1) := by
      rw [List.length_drop, hseg]
      have : 2 ^ (t + 1 + 1) = 2 ^ (t + 1) + 2 ^ (t + 1) := by ring
      omega
    have hg : (invRec t (2 * (n + 0)) (seg.take (2 ^ (t + 1)))).length = 2 ^ (t + 1) :=
      invRec_length _ _ _ htk
    have hh : (invRec t (2 * (n + 0) + 1) (seg.drop (2 ^ (t + 1)))).length = 2 ^ (t + 1) :=
      invRec_length _ _ _ hdr
    rw [mapWithIdx, mapWithIdx, splitSegsI]
    rw [List.take_left' hg, List.drop_left' hg, List.flatten_cons, List.flatten_cons,
      List.flatten_cons, Nat.sub_sub (3 * 2 ^ (6 - t) - 1) n 1]
    have hshift : mapWithIdx (fun i sg =>
        invRec t (2 * (n + i)) (sg.take (2 ^ (t + 1))) ++
          invRec t (2 * (n + i) + 1) (sg.drop (2 ^ (t + 1)))) 1 rest =
        mapWithIdx (fun i sg =>
          invRec t (2 * (n + 1 + i)) (sg.take (2 ^ (t + 1))) ++
            invRec t (2 * (n + 1 + i) + 1) (sg.drop (2 ^ (t + 1)))) 0 rest := by
      have h1 : (1 : Nat) = 0 + 1 := by omega
      rw [h1, mapWithIdx_shift]
      exact mapWithIdx_congr _ _
        (fun i x => by
          have harith : n + (i + 1) = n + 1 + i := by ring
          rw [harith]) _ _
    rw [hshift, ih (n + 1) (fun s hs2 => hs s (List.mem_cons_of_mem _ hs2))]
    have hshift2 : mapWithIdx (fun i sg => invRec (t + 1) (n + i) sg) 1 rest =
        mapWithIdx (fun i sg => invRec (t + 1) (n + 1 + i) sg) 0 rest := by
      have h1 : (1 : Nat) = 0 + 1 := by omega
      rw [h1, mapWithIdx_shift]
      exact mapWithIdx_congr _ _
        (fun i x => by
          have harith : n + (i + 1) = n + 1 + i := by ring
          rw [harith]) _ _
    rw [hshift2]
    have hinv : invRec (t + 1) (n + 0) seg =
        List.zipWith ibf1 (invRec t (2 * (n + 0)) (seg.take (2 ^ (t + 1))))
            (invRec t (2 * (n + 0) + 1) (seg.drop (2 ^ (t + 1)))) ++
          List.zipWith (ibf2 (kNttRoots.getD (3 * 2 ^ (6 - t) - 1 - (n + 0)) 0))
            (invRec t (2 * (n + 0)) (seg.take (2 ^ (t + 1))))
            (invRec t (2 * (n + 0) + 1) (seg.drop (2 ^ (t + 1)))) := by
      rw [invRec]
    rw [hinv]
    simp [List.append_assoc]

theorem mapWithIdx_id : ∀ (l : List (List Nat)) (i : Nat),
    mapWithIdx (fun _ x => x) i l = l := by
  intro l
  induction l with
  | nil => intro i; rfl
  | cons seg rest ih =>
    intro i
    rw [mapWithIdx, ih]

/-- The `len` values of the remaining forward layers, smallest depth first:
`lensListF 7 = [128, 64, 32, 16, 8, 4, 2]`, the layer schedule of `ntt`. -/
def lensListF : Nat → List Nat
  | 0 => []
  | t + 1 => 2 ^ (t + 1) :: lensListF t

theorem root_pair_range (m c : Nat)
    (hm : ballCheck (fun i => decide
      ((kNttRoots.getD i 0 * kNttRoots.getD (c - i) 0) % 3329 = 3328)) m m = true)
    (kk : Nat) (h1 : m ≤ kk) (h2 : kk < 2 * m) :
    (kNttRoots.getD kk 0 * kNttRoots.getD (c - kk) 0) % 3329 = 3328 := by
  have h := ballCheck_sound _ m m hm (kk - m) (by omega)
  have harith : m + (kk - m) = kk := by omega
  rw [harith] at h
  exact of_decide_eq_true h

/-- The forward root of heap node `kk` and the inverse root the decrementing counter
pairs with it multiply to `−1 mod q`: their `br7` exponents sum to `128` and
`17^128 ≡ −1 (mod 3329)`. -/
theorem root_pair (t : Nat) (ht : t ≤ 6) (kk : Nat) (h1 : 2 ^ (6 - t) ≤ kk)
    (h2 : kk < 2 ^ (7 - t)) :
    (kNttRoots.getD kk 0 * kNttRoots.getD (3 * 2 ^ (6 - t) - 1 - kk) 0) % 3329
      = 3328 := by
  have he : 7 - t = (6 - t) + 1 := by omega
  have h2' : kk < 2 * 2 ^ (6 - t) := by
    rw [he, pow_succ] at h2
    omega
  interval_cases t
  · exact root_pair_range (2 ^ (6 - 0)) (3 * 2 ^ (6 - 0) - 1) (by rfl) kk h1 h2'
  · exact root_pair_range (2 ^ (6 - 1)) (3 * 2 ^ (6 - 1) - 1) (by rfl) kk h1 h2'
  · exact root_pair_range (2 ^ (6 - 2)) (3 * 2 ^ (6 - 2) - 1) (by rfl) kk h1 h2'
  · exact root_pair_range (2 ^ (6 - 3)) (3 * 2 ^ (6 - 3) - 1) (by rfl) kk h1 h2'
  · exact root_pair_range (2 ^ (6 - 4)) (3 * 2 ^ (6 - 4) - 1) (by rfl) kk h1 h2'
  · exact root_pair_range (2 ^ (6 - 5)) (3 * 2 ^ (6 - 5) - 1) (by rfl) kk h1 h2'
  · exact root_pair_range (2 ^ (6 - 6)) (3 * 2 ^ (6 - 6) - 1) (by rfl) kk h1 h2'

theorem zipWith_fuse (F f g : Nat → Nat → Nat) :
    ∀ (u v : List Nat),
      List.zipWith F (List.zipWith f u v) (List.zipWith g u v) =
        List.zipWith (fun a b => F (f a b) (g a b)) u v := by
  intro u
  induction u with
  | nil => intro v; rfl
  | cons a u ih =>
    intro v
    cases v with
    | nil => rfl
    | cons b v =>
      rw [List.zipWith_cons_cons, List.zipWith_cons_cons, List.zipWith_cons_cons,
        List.zipWith_cons_cons, ih]

theorem zipWith_congr_mem (f g : Nat → Nat → Nat) :
    ∀ (u v : List Nat), (∀ a ∈ u, ∀ b ∈ v, f a b = g a b) →
      List.zipWith f u v = List.zipWith g u v := by
  intro u
  induction u with
  | nil => intro v _; rfl
  | cons a u ih =>
    intro v h
    cases v with
    | nil => rfl
    | cons b v =>
      rw [List.zipWith_cons_cons, List.zipWith_cons_cons,
        h a (List.mem_cons_self _ _) b (List.mem_cons_self _ _),
        ih v (fun x hx y hy =>
          h x (List.mem_cons_of_mem _ hx) y (List.mem_cons_of_mem _ hy))]

theorem zipWith_fst (F : Nat → Nat) :
    ∀ (u v : List Nat), u.length = v.length →
      List.zipWith (fun a _ => F a) u v = u.map F := by
  intro u
  induction u with
  | nil => intro v _; rfl
  | cons a u ih =>
    intro v h
    cases v with
    | nil => exact absurd h (by simp)
    | cons b v =>
      rw [List.zipWith_cons_cons, List.map_cons,
        ih v (by simpa using h)]

theorem zipWith_snd (F : Nat → Nat) :
    ∀ (u v : List Nat), u.length = v.length →
      List.zipWith (fun _ b => F b) u v = v.map F := by
  intro u
  induction u with
  | nil =>
    intro v h
    cases v with
    | nil => rfl
    | cons b v => exact absurd h (by simp)
  | cons a u ih =>
    intro v h
    cases v with
    | nil => exact absurd h (by simp)
    | cons b v =>
      rw [List.zipWith_cons_cons, List.map_cons,
        ih v (by simpa using h)]

/-- Pointwise inversion, first output: the inverse butterfly applied to the scaled
forward butterfly outputs recovers `a`, gaining one factor of two. -/
theorem inv_fwd_left (z tp a b : Nat) :
    ibf1 (mbf1 z a b * 2 ^ tp % 3329) (mbf2 z a b * 2 ^ tp % 3329)
      = a * 2 ^ (tp + 1) % 3329 := by
  have hw : z * b % 3329 ≤ a + 3329 := by
    have := Nat.mod_lt (z * b) (show 0 < 3329 by omega)
    omega
  rw [ibf1, mbf1, mbf2]
  rw [← ZMod.natCast_eq_natCast_iff']
  push_cast [ZMod.natCast_mod, Nat.cast_sub hw]
  ring_nf
  rw [show (3329 : ZMod 3329) = 0 from by decide]
  ring

/-- Pointwise inversion, second output: recovers `b`, using that the paired roots
multiply to `−1 mod q`. -/
theorem inv_fwd_right (z zi tp a b : Nat) (hz : (z * zi) % 3329 = 3328) :
    ibf2 zi (mbf1 z a b * 2 ^ tp % 3329) (mbf2 z a b * 2 ^ tp % 3329)
      = b * 2 ^ (tp + 1) % 3329 := by
  have hw : z * b % 3329 ≤ a + 3329 := by
    have := Nat.mod_lt (z * b) (show 0 < 3329 by omega)
    omega
  have hx : mbf1 z a b * 2 ^ tp % 3329 ≤ mbf2 z a b * 2 ^ tp % 3329 + 3329 := by
    have := Nat.mod_lt (mbf1 z a b * 2 ^ tp) (show 0 < 3329 by omega)
    omega
  have hzc : ((z : ZMod 3329)) * (zi : ZMod 3329) = -1 := by
    have hc := congrArg (fun n => ((n : Nat) : ZMod 3329)) hz
    simp only [] at hc
    rw [ZMod.natCast_mod] at hc
    push_cast at hc
    rw [hc]
    decide
  rw [ibf2]
  rw [← ZMod.natCast_eq_natCast_iff']
  push_cast [ZMod.natCast_mod, Nat.cast_sub hx]
  rw [mbf1, mbf2]
  push_cast [ZMod.natCast_mod, Nat.cast_sub hw]
  rw [show (3329 : ZMod 3329) = 0 from by decide]
  linear_combination ((-2 : ZMod 3329) * (b : ZMod 3329) * (2 : ZMod 3329) ^ tp) * hzc

theorem fwdRec_bound : ∀ (t kk : Nat) (s : List Nat), (∀ x ∈ s, x < 3329) →
    ∀ x ∈ fwdRec t kk s, x < 3329 := by
  intro t
  induction t with
  | zero => intro kk s hs; rw [fwdRec]; exact hs
  | succ m ih =>
    intro kk s hs x hx
    rw [fwdRec] at hx
    rcases List.mem_append.mp hx with h | h
    · exact ih _ _ (zipWith_mem_bound _ (fun a b => mbf1_lt _ a b) _ _) x h
    · exact ih _ _ (zipWith_mem_bound _ (fun a b => mbf2_lt _ a b) _ _) x h

/-- Applying the inverse recursion after the forward recursion at the same heap node
recovers the input scaled by `2^t mod q`. -/
theorem invRec_fwdRec : ∀ t, t ≤ 7 → ∀ kk, 2 ^ (7 - t) ≤ kk → kk < 2 ^ (8 - t) →
    ∀ s : List Nat, s.length = 2 ^ (t + 1) → (∀ x ∈ s, x < 3329) →
    invRec t kk (fwdRec t kk s) = s.map (fun a => a * 2 ^ t % 3329) := by
  intro t
  induction t with
  | zero =>
    intro _ kk _ _ s hs hb
    rw [fwdRec, invRec]
    have hmap : s.map (fun a => a * 2 ^ 0 % 3329) = s := by
      conv_rhs => rw [← List.map_id s]
      exact List.map_congr_left (fun a ha => by simp [Nat.mod_eq_of_lt (hb a ha)])
    rw [hmap]
  | succ t ih =>
    intro ht kk hk1 hk2 s hs hb
    have ht6 : t ≤ 6 := by omega
    have h71 : 7 - (t + 1) = 6 - t := by omega
    have h81 : 8 - (t + 1) = 7 - t := by omega
    rw [h71] at hk1
    rw [h81] at hk2
    have hk7 : 2 ^ (7 - t) = 2 * 2 ^ (6 - t) := by
      have he : 7 - t = (6 - t) + 1 := by omega
      rw [he]
      ring
    have hk8 : 2 ^ (8 - t) = 2 * 2 ^ (7 - t) := by
      have he : 8 - t = (7 - t) + 1 := by omega
      rw [he]
      ring
    have htk : (s.take (2 ^ (t + 1))).length = 2 ^ (t + 1) := by
      rw [List.length_take]
      have := Nat.pow_lt_pow_right (a := 2) (by omega) (Nat.lt_succ_self (t + 1))
      omega
    have hdr : (s.drop (2 ^ (t + 1))).length = 2 ^ (t + 1) := by
      rw [List.length_drop, hs]
      have : 2 ^ (t + 1 + 1) = 2 ^ (t + 1) + 2 ^ (t + 1) := by ring
      omega
    have hw1len : (List.zipWith (mbf1 (kNttRoots.getD kk 0)) (s.take (2 ^ (t + 1)))
        (s.drop (2 ^ (t + 1)))).length = 2 ^ (t + 1) := by
      rw [List.length_zipWith, htk, hdr]
      omega
    have hw2len : (List.zipWith (mbf2 (kNttRoots.getD kk 0)) (s.take (2 ^ (t + 1)))
        (s.drop (2 ^ (t + 1)))).length = 2 ^ (t + 1) := by
      rw [List.length_zipWith, htk, hdr]
      omega
    have hf1 : (fwdRec t (2 * kk) (List.zipWith (mbf1 (kNttRoots.getD kk 0))
        (s.take (2 ^ (t + 1))) (s.drop (2 ^ (t + 1))))).length = 2 ^ (t + 1) :=
      fwdRec_length _ _ _ hw1len
    rw [fwdRec, invRec, List.take_left' hf1, List.drop_left' hf1]
    rw [ih (by omega) (2 * kk) (by omega) (by omega) _ hw1len
      (zipWith_mem_bound _ (fun a b => mbf1_lt _ a b) _ _)]
    rw [ih (by omega) (2 * kk + 1) (by omega) (by omega) _ hw2len
      (zipWith_mem_bound _ (fun a b => mbf2_lt _ a b) _ _)]
    simp only [List.map_zipWith]
    rw [zipWith_fuse, zipWith_fuse]
    have hzz : (kNttRoots.getD kk 0 *
        kNttRoots.getD (3 * 2 ^ (6 - t) - 1 - kk) 0) % 3329 = 3328 :=
      root_pair t ht6 kk hk1 hk2
    have e1 : List.zipWith (fun a b =>
        ibf1 (mbf1 (kNttRoots.getD kk 0) a b * 2 ^ t % 3329)
          (mbf2 (kNttRoots.getD kk 0) a b * 2 ^ t % 3329))
        (s.take (2 ^ (t + 1))) (s.drop (2 ^ (t + 1))) =
        (s.take (2 ^ (t + 1))).map (fun a => a * 2 ^ (t + 1) % 3329) := by
      rw [zipWith_congr_mem _ (fun a _ => a * 2 ^ (t + 1) % 3329) _ _
        (fun a _ b _ => inv_fwd_left (kNttRoots.getD kk 0) t a b)]
      exact zipWith_fst _ _ _ (htk.trans hdr.symm)
    have e2 : List.zipWith (fun a b =>
        ibf2 (kNttRoots.getD (3 * 2 ^ (6 - t) - 1 - kk) 0)
          (mbf1 (kNttRoots.getD kk 0) a b * 2 ^ t % 3329)
          (mbf2 (kNttRoots.getD kk 0) a b * 2 ^ t % 3329))
        (s.take (2 ^ (t + 1))) (s.drop (2 ^ (t + 1))) =
        (s.drop (2 ^ (t + 1))).map (fun a => a * 2 ^ (t + 1) % 3329) := by
      rw [zipWith_congr_mem _ (fun _ b => b * 2 ^ (t + 1) % 3329) _ _
        (fun a _ b _ => inv_fwd_right (kNttRoots.getD kk 0)
          (kNttRoots.getD (3 * 2 ^ (6 - t) - 1 - kk) 0) t a b hzz)]
      exact zipWith_snd _ _ _ (htk.trans hdr.symm)
    rw [e1, e2]
    conv_rhs => rw [← List.take_append_drop (2 ^ (t + 1)) s]
    rw [List.map_append]

/-- The `len` values of the first inverse layers, smallest first:
`lensListI 7 = [2, 4, 8, 16, 32, 64, 128]`, the layer schedule of `ntt_inv`. -/
def lensListI : Nat → List Nat
  | 0 => []
  | t + 1 => lensListI t ++ [2 ^ (t + 1)]

theorem iter_inv : ∀ t, t ≤ 7 → ∀ (segs : List (List Nat)),
    segs.length = 2 ^ (7 - t) →
    (∀ seg ∈ segs, seg.length = 2 ^ (t + 1)) →
    (∀ seg ∈ segs, ∀ x ∈ seg, x < 3329) →
    (lensListI t).foldl nttInvLayer (segs.flatten, 127) =
      ((mapWithIdx (fun i seg => invRec t (2 ^ (7 - t) + i) seg) 0 segs).flatten,
        2 ^ (7 - t) - 1) := by
  intro t
  induction t with
  | zero =>
    intro _ segs hlen hsize hbound
    rw [lensListI, List.foldl_nil]
    have hrec : mapWithIdx (fun i seg => invRec 0 (2 ^ (7 - 0) + i) seg) 0 segs = segs := by
      rw [mapWithIdx_congr _ (fun _ x => x) (fun i x => by rw [invRec]) segs 0,
        mapWithIdx_id]
    rw [hrec]
    norm_num
  | succ t ih =>
    intro ht segs hlen hsize hbound
    have h7 : 7 - (t + 1) = 6 - t := by omega
    have hk2 : 2 ^ (7 - t) = 2 * 2 ^ (6 - t) := by
      have he : 7 - t = (6 - t) + 1 := by omega
      rw [he]
      ring
    have hlen6 : segs.length = 2 ^ (6 - t) := by rw [hlen, h7]
    rw [lensListI, List.foldl_append, List.foldl_cons, List.foldl_nil, h7]
    have hsize2 : ∀ seg ∈ segs, seg.length = 2 * 2 ^ (t + 1) := by
      intro seg hseg
      rw [hsize seg hseg]
      ring
    have hihlen : (halveSegs (2 ^ (t + 1)) segs).length = 2 ^ (7 - t) := by
      rw [halveSegs_length, hlen6, hk2]
    have hih := ih (by omega) (halveSegs (2 ^ (t + 1)) segs) hihlen
      (halveSegs_each_length _ _ hsize2) (halveSegs_bound _ _ hbound)
    rw [← halveSegs_flatten (2 ^ (t + 1)) segs, hih]
    have hcongr : mapWithIdx (fun i seg => invRec t (2 ^ (7 - t) + i) seg) 0
        (halveSegs (2 ^ (t + 1)) segs) =
        mapWithIdx (fun i seg => invRec t (2 * 2 ^ (6 - t) + i) seg) 0
          (halveSegs (2 ^ (t + 1)) segs) := by
      exact mapWithIdx_congr _ _ (fun i x => by rw [hk2]) _ _
    rw [hcongr, mapWithIdx_halveSegs]
    have hpaired : ∀ l ∈ mapWithIdx (fun i sg =>
        invRec t (2 * (2 ^ (6 - t) + i)) (sg.take (2 ^ (t + 1))) ++
          invRec t (2 * (2 ^ (6 - t) + i) + 1) (sg.drop (2 ^ (t + 1)))) 0 segs,
        l.length = 2 * 2 ^ (t + 1) := by
      intro l hl
      obtain ⟨m, sg, hsg, hleq⟩ := mapWithIdx_mem _ _ _ l hl
      have hsg2 : sg.length = 2 * 2 ^ (t + 1) := hsize2 sg hsg
      have htk : (sg.take (2 ^ (t + 1))).length = 2 ^ (t + 1) := by
        rw [List.length_take]
        omega
      have hdr : (sg.drop (2 ^ (t + 1))).length = 2 ^ (t + 1) := by
        rw [List.length_drop]
        omega
      rw [hleq, List.length_append, invRec_length _ _ _ htk, invRec_length _ _ _ hdr]
      ring
    have hpbound : ∀ l ∈ mapWithIdx (fun i sg =>
        invRec t (2 * (2 ^ (6 - t) + i)) (sg.take (2 ^ (t + 1))) ++
          invRec t (2 * (2 ^ (6 - t) + i) + 1) (sg.drop (2 ^ (t + 1)))) 0 segs,
        ∀ x ∈ l, x < 3329 := by
      intro l hl x hx
      obtain ⟨m, sg, hsg, hleq⟩ := mapWithIdx_mem _ _ _ l hl
      rw [hleq] at hx
      rcases List.mem_append.mp hx with h | h
      · exact invRec_bound _ _ _ (fun y hy => hbound sg hsg y (List.take_subset _ _ hy)) x h
      · exact invRec_bound _ _ _ (fun y hy => hbound sg hsg y (List.drop_subset _ _ hy)) x h
    have hpcount : (mapWithIdx (fun i sg =>
        invRec t (2 * (2 ^ (6 - t) + i)) (sg.take (2 ^ (t + 1))) ++
          invRec t (2 * (2 ^ (6 - t) + i) + 1) (sg.drop (2 ^ (t + 1)))) 0 segs).length =
        256 / (2 * 2 ^ (t + 1)) := by
      rw [mapWithIdx_length, hlen6]
      have hpow2 : 2 * 2 ^ (t + 1) = 2 ^ (t + 1 + 1) := by ring
      have h256 : (256 : Nat) = 2 ^ 8 := by norm_num
      rw [hpow2, h256, Nat.pow_div (by omega) (by omega)]
      congr 1
      omega
    rw [nttInvLayer_eq (2 ^ (t + 1)) (Nat.pos_pow_of_pos _ (by omega)) _ (2 ^ (7 - t) - 1)
      hpaired hpbound hpcount]
    have hkc : 2 ^ (7 - t) - 1 = 3 * 2 ^ (6 - t) - 1 - 2 ^ (6 - t) := by omega
    rw [mapWithIdx_length, hlen6, hkc, splitSegsI_invRec t segs (2 ^ (6 - t)) hsize]
    rw [Prod.mk.injEq]
    constructor
    · rfl
    · omega

theorem iter_fwd : ∀ t, t ≤ 7 → ∀ (segs : List (List Nat)),
    segs.length = 2 ^ (7 - t) →
    (∀ seg ∈ segs, seg.length = 2 ^ (t + 1)) →
    (∀ seg ∈ segs, ∀ x ∈ seg, x < 3329) →
    (lensListF t).foldl nttLayer (segs.flatten, 2 ^ (7 - t)) =
      ((mapWithIdx (fun i seg => fwdRec t (2 ^ (7 - t) + i) seg) 0 segs).flatten, 128) := by
  intro t
  induction t with
  | zero =>
    intro _ segs hlen hsize hbound
    rw [lensListF, List.foldl_nil]
    have hrec : mapWithIdx (fun i seg => fwdRec 0 (2 ^ (7 - 0) + i) seg) 0 segs = segs := by
      rw [mapWithIdx_congr _ (fun _ x => x) (fun i x => by rw [fwdRec]) segs 0,
        mapWithIdx_id]
    rw [hrec]
    norm_num
  | succ t ih =>
    intro ht segs hlen hsize hbound
    have ht6 : t ≤ 6 := by omega
    have h7 : 7 - (t + 1) = 6 - t := by omega
    have hpow2 : 2 ^ (t + 1 + 1) = 2 * 2 ^ (t + 1) := by ring
    have hk2 : 2 ^ (7 - t) = 2 * 2 ^ (6 - t) := by
      have he : 7 - t = (6 - t) + 1 := by omega
      rw [he]
      ring
    have hlen6 : segs.length = 2 ^ (6 - t) := by rw [hlen, h7]
    rw [lensListF, List.foldl_cons, h7]
    have hcount : segs.length = 256 / (2 * 2 ^ (t + 1)) := by
      rw [← hpow2]
      have h256 : (256 : Nat) = 2 ^ 8 := by norm_num
      rw [h256, Nat.pow_div (by omega) (by omega), hlen]
      congr 1
      omega
    have hsize2 : ∀ seg ∈ segs, seg.length = 2 * 2 ^ (t + 1) := by
      intro seg hseg
      rw [hsize seg hseg]
      ring
    rw [nttLayer_eq (2 ^ (t + 1)) (Nat.pos_pow_of_pos _ (by omega)) segs (2 ^ (6 - t))
      hsize2 hbound hcount]
    have hsum : 2 ^ (6 - t) + segs.length = 2 ^ (7 - t) := by
      rw [hlen6, hk2]
      ring
    rw [hsum]
    have ihseg := ih (by omega) (splitSegsF (2 ^ (t + 1)) (2 ^ (6 - t)) segs)
      (by rw [splitSegsF_length, hlen6, ← hk2])
      (splitSegsF_each_length _ _ _ hsize2)
      (splitSegsF_bound _ _ _)
    rw [ihseg]
    have halign : mapWithIdx (fun i seg => fwdRec t (2 ^ (7 - t) + i) seg) 0
        (splitSegsF (2 ^ (t + 1)) (2 ^ (6 - t)) segs) =
        mapWithIdx (fun i seg => fwdRec t (2 * 2 ^ (6 - t) + i) seg) 0
          (splitSegsF (2 ^ (t + 1)) (2 ^ (6 - t)) segs) := by
      exact mapWithIdx_congr _ _ (fun i x => by rw [hk2]) _ _
    rw [halign, splitSegsF_fwdRec]

/-- The loop form of `NttElement::ntt` agrees with the recursive form at the root. -/
theorem ntt_eq_fwdRec (f : List Nat) (hf : f.length = 256) (hb : ∀ x ∈ f, x < 3329) :
    ntt f = fwdRec 7 1 f := by
  have hl : lensListF 7 = [128, 64, 32, 16, 8, 4, 2] := by decide
  have h := iter_fwd 7 (by omega) [f]
    (by simp)
    (by
      intro seg hseg
      rw [List.mem_singleton] at hseg
      rw [hseg, hf]
      norm_num)
    (by
      intro seg hseg
      rw [List.mem_singleton] at hseg
      rw [hseg]
      exact hb)
  rw [hl, mapWithIdx, mapWithIdx] at h
  simp only [List.flatten_cons, List.flatten_nil, List.append_nil] at h
  rw [show (2 : Nat) ^ (7 - 7) + 0 = 1 from by norm_num,
    show (2 : Nat) ^ (7 - 7) = 1 from by norm_num] at h
  rw [ntt, h]

/-- The loop form of `NttElement::ntt_inv`, before the final `3303` scaling, agrees
with the recursive inverse at the root. -/
theorem ntt_inv_loop_eq_invRec (g : List Nat) (hg : g.length = 256)
    (hb : ∀ x ∈ g, x < 3329) :
    ntt_inv g = (invRec 7 1 g).map fun x => fmul x 3303 := by
  have hl : lensListI 7 = [2, 4, 8, 16, 32, 64, 128] := by decide
  have h := iter_inv 7 (by omega) [g]
    (by simp)
    (by
      intro seg hseg
      rw [List.mem_singleton] at hseg
      rw [hseg, hg]
      norm_num)
    (by
      intro seg hseg
      rw [List.mem_singleton] at hseg
      rw [hseg]
      exact hb)
  rw [hl, mapWithIdx, mapWithIdx] at h
  simp only [List.flatten_cons, List.flatten_nil, List.append_nil] at h
  rw [show (2 : Nat) ^ (7 - 7) + 0 = 1 from by norm_num,
    show (2 : Nat) ^ (7 - 7) - 1 = 0 from by norm_num] at h
  rw [ntt_inv, h]

end CapyKEM

namespace CapyKEM

/-- **C8**: for every compression width `d ∈ {1, 4, 5, 10, 11}` and every
`y ∈ [0, 2^d)`, `compress_d (decompress_d y) = y` exactly. -/
theorem compress_decompress_roundtrip (d y : Nat)
    (hd : d = 1 ∨ d = 4 ∨ d = 5 ∨ d = 10 ∨ d = 11) (hy : y < 2 ^ d) :
    compress d (decompress d y) = y := by
  have key : ∀ dd : Nat,
      ballCheck (fun z => compress dd (decompress dd z) == z) 0 (2 ^ dd) = true →
      ∀ z, z < 2 ^ dd → compress dd (decompress dd z) = z := by
    intro dd hchk z hz
    have h := ballCheck_sound _ _ _ hchk z hz
    simpa using h
  rcases hd with h | h | h | h | h <;> subst h <;> exact key _ (by decide) y hy

/-- Witness for `compress_decompress_roundtrip` at `d = 10`, `y = 777`. -/
theorem compress_decompress_roundtrip_witness :
    (10 = 1 ∨ 10 = 4 ∨ 10 = 5 ∨ 10 = 10 ∨ 10 = 11) ∧ 777 < 2 ^ 10 ∧
      compress 10 (decompress 10 777) = 777 :=
  ⟨by decide, by decide,
    compress_decompress_roundtrip 10 777 (by decide) (by decide)⟩

/-- **C7, counterexample**: the claim says a 384-byte slice containing a 12-bit value
`≥ q` makes `byte_decode_12` fail; but on the all-`0xFF` input (every 12-bit value is
`4095 ≥ q = 3329`) decoding succeeds, producing 256 coefficients equal to
`4095 − 3329 = 766` — `F::new` reduces each value below `q` before `check_reduced`
looks at it, so the bounds check can never fire. -/
theorem byte_decode_12_accepts_unreduced :
    (∃ ch, ch ∈ chunks3 (List.replicate 384 255) ∧ chVal ch &&& 4095 ≥ 3329) ∧
      byte_decode_12 (List.replicate 384 255) = Except.ok (List.replicate 256 766) := by
  constructor
  · refine ⟨[255, 255, 255], by decide, by decide⟩
  · rfl

/-- **C7, amended**: when decoding a width-12 encoded polynomial, each 3-byte group
is split into two 12-bit values and each value is mapped into `[0, q)` by a single
conditional subtraction of `q` (`F::new`); decoding a byte slice fails if and only if
the slice length differs from 384 — a 12-bit value `≥ q` does NOT cause a failure. -/
theorem byte_decode_12_isOk_iff (b : List Nat) (hb : ∀ x ∈ b, x < 256) :
    (byte_decode_12 b).isOk = true ↔ b.length = 384 := by
  constructor
  · intro h
    by_contra hlen
    rw [byte_decode_12, if_pos hlen] at h
    simp [Except.isOk, Except.toBool] at h
  · intro hlen
    rw [byte_decode_12_ok b hb hlen]
    rfl

/-- Modelled from the spec: `J(x)` is SHAKE-256 squeezed to 32 bytes
(spec section 6, symmetric primitive binding). -/
def jOracle (H : Primitives) (x : List Nat) : List Nat :=
  (List.range 32).map (H.shake256Stream x)

/-- **C3**: the code's implicit-rejection secret `compute_k_bar(z, c)` is the first
32 bytes of `SHA3-512(z ‖ c)` — not `J(z ‖ c) = SHAKE-256(z ‖ c)` as the claim (and
FIPS 203 Algorithm 17, which `mlkem_decaps` documents itself as implementing)
requires: for any primitives instance in which the two digests differ (as they do in
reality), the two values disagree. -/
theorem compute_k_bar_uses_sha3_512 :
    (∀ (H : Primitives) (z c : List Nat),
      compute_k_bar H z c = (H.sha3_512 (z ++ c)).take 32) ∧
    compute_k_bar distinguishingPrimitives (List.replicate 32 0) (List.replicate 2 0) ≠
      jOracle distinguishingPrimitives (List.replicate 32 0 ++ List.replicate 2 0) := by
  constructor
  · intro H z c
    rfl
  · decide

/-- **C4**: the hash of `ek` used by the KEM — `hash_ek` in `keygen.rs` (stored into
`dk` by `pack_dk`) and `hash_to_slice` in `encrypt.rs` (fed into `G` by
`mlkem_encaps`) — is the first 32 bytes of `SHA3-512(ek)`, not `SHA3-256(ek)` as the
claim requires; the two differ for any primitives instance in which the digests
differ (as they do in reality). -/
theorem kem_ek_hash_uses_sha3_512 :
    (∀ (H : Primitives) (ek : List Nat),
      hash_ek H ek = (H.sha3_512 ek).take 32 ∧
      hash_to_slice H ek 32 = (H.sha3_512 ek).take 32) ∧
    (∀ (H : Primitives) (P : ParamSet) (z : List Nat),
      (ml_kem_keygen H P z).2 =
        (k_pke_keygen H P z).2 ++ (k_pke_keygen H P z).1 ++
          hash_ek H (k_pke_keygen H P z).1 ++ z) ∧
    hash_ek distinguishingPrimitives (List.replicate 800 0) ≠
      distinguishingPrimitives.sha3_256 (List.replicate 800 0) := by
  refine ⟨fun H ek => ⟨rfl, rfl⟩, fun H P z => rfl, ?_⟩
  decide

/-- **C5**: in `k_pke_encrypt`, the vector `rvec` is drawn by CBD of width
`P::EtaTwo` (nonces `0 … k−1`) — not width η₁ as the claim requires. For ML-KEM-768
and ML-KEM-1024 the two widths coincide (η₁ = η₂ = 2), but ML-KEM-512 has η₁ = 3 ≠
2 = η₂, and on a concrete XOF stream the width-3 and width-2 draws differ. -/
theorem encrypt_rvec_uses_eta2 :
    (∀ (H : Primitives) (rand : List Nat),
      encryptRVec H p512 rand = (List.range 2).map fun i => sample_poly_cbd H 2 rand i) ∧
    p512.eta1 = 3 ∧ p512.eta2 = 2 ∧
    sample_poly_cbd distinguishingPrimitives 3 (List.replicate 32 0) 0 ≠
      sample_poly_cbd distinguishingPrimitives 2 (List.replicate 32 0) 0 := by
  refine ⟨fun H rand => rfl, rfl, rfl, ?_⟩
  decide

/-- **C10, failing input**: `mlkem_decaps` does not absorb a too-short ciphertext
into the implicit-rejection path, nor fail with `InvalidInput`: the first
`split_at(32·d_u)` in `k_pke_decrypt` panics (a process abort). Evaluated here at an
ML-KEM-768 decapsulation key of the keygen layout (length `768·3 + 96 = 2400`) and
the empty ciphertext. -/
theorem decaps_short_ciphertext_panics :
    mlkem_decaps zeroPrimitives p768 [] (List.replicate 2400 0) =
      Except.error RtError.panic := by
  have hu : decryptU p768 p768.k [] = Except.error RtError.panic := by
    show decryptU p768 3 [] = _
    rw [decryptU, if_neg]
    simp [p768]
  have hdec : ∀ dkPke, k_pke_decrypt p768 dkPke [] = Except.error RtError.panic := by
    intro dkPke
    rw [k_pke_decrypt, hu]
    rfl
  rw [mlkem_decaps, unpack_dk]
  rw [if_pos (by rw [List.length_replicate]; norm_num [p768])]
  rw [except_bind_ok, hdec]
  rfl

/-- **C2**: on a decapsulation key of the keygen layout (length `768·k + 96`, made of
bytes) and a ciphertext of the correct length `32·(d_u·k + d_v)`, `mlkem_decaps`
always returns `Ok`: the 32-byte `K'` (first half of `G(m' ‖ h)`) when the
re-encrypted ciphertext equals `c` byte-for-byte, and the implicit-rejection value
`K̄` derived from `z` and `c` otherwise; no `DecapsulationFailure` (nor any other
error) reaches the caller. -/
theorem decaps_never_fails (H : Primitives) (P : ParamSet) (c dk : List Nat)
    (hdk : dk.length = 768 * P.k + 96) (hb : ∀ x ∈ dk, x < 256)
    (hc : c.length = 32 * (P.du * P.k + P.dv)) :
    mlkem_decaps H P c dk =
      Except.ok (if ctEq c (decaps_c_prime H P c dk) then decaps_k_prime H P c dk
        else decaps_k_bar H P c dk) ∧
    (if ctEq c (decaps_c_prime H P c dk) then decaps_k_prime H P c dk
        else decaps_k_bar H P c dk).length = 32 := by
  have hcexp : 32 * (P.du * P.k + P.dv) = 32 * P.du * P.k + 32 * P.dv := by ring
  constructor
  · rw [mlkem_decaps, unpack_dk]
    rw [if_pos (by omega)]
    rw [except_bind_ok]
    rw [k_pke_decrypt_ok P (dk.take (384 * P.k)) c
      (by rw [List.length_take]; omega)
      (fun x hx => hb x (List.take_subset _ _ hx))
      (by omega)]
    rw [except_bind_ok]
    simp only [prod4_1, prod4_2, prod4_3, prod4_4]
    rw [k_pke_encrypt_ok H P ((dk.drop (384 * P.k)).take (384 * P.k + 32)) _ _
      (slice_length _ _ _ (by omega))
      (fun x hx => hb x (slice_mem hx))]
    rw [except_bind_ok]
    rfl
  · by_cases hct : ctEq c (decaps_c_prime H P c dk)
    · rw [if_pos hct]
      exact derive_keys_fst_length H _ _
    · rw [if_neg hct]
      exact compute_k_bar_length H _ _

/-- Witness for `decaps_never_fails`: ML-KEM-768, the all-zero 2400-byte key of the
keygen layout, the all-zero 1088-byte ciphertext, and the trivial primitives. -/
theorem decaps_never_fails_witness :
    ((List.replicate 2400 0 : List Nat).length = 768 * p768.k + 96) ∧
    ((List.replicate 1088 0 : List Nat).length = 32 * (p768.du * p768.k + p768.dv)) ∧
    (mlkem_decaps zeroPrimitives p768 (List.replicate 1088 0) (List.replicate 2400 0) =
      Except.ok (if ctEq (List.replicate 1088 0)
          (decaps_c_prime zeroPrimitives p768 (List.replicate 1088 0)
            (List.replicate 2400 0))
        then decaps_k_prime zeroPrimitives p768 (List.replicate 1088 0)
          (List.replicate 2400 0)
        else decaps_k_bar zeroPrimitives p768 (List.replicate 1088 0)
          (List.replicate 2400 0)) ∧
      (if ctEq (List.replicate 1088 0)
          (decaps_c_prime zeroPrimitives p768 (List.replicate 1088 0)
            (List.replicate 2400 0))
        then decaps_k_prime zeroPrimitives p768 (List.replicate 1088 0)
          (List.replicate 2400 0)
        else decaps_k_bar zeroPrimitives p768 (List.replicate 1088 0)
          (List.replicate 2400 0)).length = 32) :=
  ⟨by rw [List.length_replicate]; rfl, by rw [List.length_replicate]; rfl,
    decaps_never_fails zeroPrimitives p768 (List.replicate 1088 0) (List.replicate 2400 0)
      (by rw [List.length_replicate]; rfl)
      (fun x hx => by
        rw [List.eq_of_mem_replicate hx]
        omega)
      (by rw [List.length_replicate]; rfl)⟩

/-- The value the decode/re-encode loop of `mlkem_encaps` accumulates. -/
def reencodeEk (P : ParamSet) (ek : List Nat) : List Nat :=
  (List.range P.k).foldl
    (fun acc i => byte_encode_12 (decode12core ((ek.drop (384 * i)).take 384)) acc) []

theorem encaps_reencode_ok (P : ParamSet) (ek : List Nat)
    (hlen : ek.length = 384 * P.k + 32) (hb : ∀ x ∈ ek, x < 256) :
    (List.range P.k).foldlM
      (fun acc i => do
        let sl ← sliceE ek (384 * i) (384 * (i + 1))
        let decoded ← liftKem (byte_decode_12 sl)
        pure (byte_encode_12 decoded acc))
      ([] : List Nat) = Except.ok (reencodeEk P ek) := by
  rw [reencodeEk]
  refine foldlM_ok _ _ _ ?_ []
  intro i hi acc
  have hik : i < P.k := List.mem_range.mp hi
  have hbound : 384 * (i + 1) ≤ ek.length := by
    have h1 : 384 * (i + 1) ≤ 384 * P.k := by
      have := Nat.mul_le_mul_left 384 (Nat.succ_le_of_lt hik)
      omega
    omega
  rw [sliceE_ok _ _ _ (by omega) hbound, except_bind_ok]
  have hdiff : 384 * (i + 1) - 384 * i = 384 := by
    have : 384 * (i + 1) = 384 * i + 384 := by ring
    omega
  rw [hdiff]
  rw [byte_decode_12_ok _ (fun x hx => hb x (slice_mem hx))
    (slice_length _ _ _ (by omega)), liftKem_ok, except_bind_ok]
  rfl

/-- **C6**: `mlkem_encaps` fails with `InvalidInput` exactly when the supplied `ek`
has the wrong length (`≠ 384·k + 32`) or the decode/re-encode of its `k` packed
polynomials differs from its first `384·k` bytes; when both checks pass, it returns
`Ok` with the 32-byte `K` (first half of `G(m ‖ H(ek))`) and the K-PKE ciphertext. -/
theorem encaps_invalid_iff (H : Primitives) (P : ParamSet) (ek m : List Nat)
    (hb : ∀ x ∈ ek, x < 256) :
    (mlkem_encaps H P ek m = Except.error (RtError.kem KemError.invalidInput) ↔
      (ek.length ≠ 384 * P.k + 32 ∨ reencodeEk P ek ≠ ek.take (384 * P.k))) ∧
    (ek.length = 384 * P.k + 32 → reencodeEk P ek = ek.take (384 * P.k) →
      mlkem_encaps H P ek m =
        Except.ok ((derive_keys H m (hash_to_slice H ek 32)).1,
          k_pke_encrypt_core H P ek m (derive_keys H m (hash_to_slice H ek 32)).2) ∧
      (derive_keys H m (hash_to_slice H ek 32)).1.length = 32) := by
  by_cases hlen : ek.length = 384 * P.k + 32
  · have hloop := encaps_reencode_ok P ek hlen hb
    by_cases hre : reencodeEk P ek = ek.take (384 * P.k)
    · have henc : mlkem_encaps H P ek m =
          Except.ok ((derive_keys H m (hash_to_slice H ek 32)).1,
            k_pke_encrypt_core H P ek m (derive_keys H m (hash_to_slice H ek 32)).2) := by
        rw [mlkem_encaps, if_neg (by omega), hloop, except_bind_ok]
        rw [if_neg (by simp [ctEq, hre])]
        simp only []
        rw [k_pke_encrypt_ok H P ek m _ hlen hb, except_bind_ok]
        rfl
      constructor
      · rw [henc]
        constructor
        · intro h
          exact absurd h (by simp)
        · intro h
          rcases h with h | h
          · exact absurd hlen h
          · exact absurd hre h
      · intro _ _
        exact ⟨henc, derive_keys_fst_length H _ _⟩
    · have herr : mlkem_encaps H P ek m =
          Except.error (RtError.kem KemError.invalidInput) := by
        rw [mlkem_encaps, if_neg (by omega), hloop, except_bind_ok]
        rw [if_pos (by simp [ctEq, hre])]
      refine ⟨?_, fun _ h => absurd h hre⟩
      rw [herr]
      simp [hre]
  · have herr : mlkem_encaps H P ek m =
        Except.error (RtError.kem KemError.invalidInput) := by
      rw [mlkem_encaps, if_pos (by omega)]
    refine ⟨?_, fun h => absurd h hlen⟩
    rw [herr]
    simp [hlen]

/-- Witness for `encaps_invalid_iff`: ML-KEM-512, the all-zero 800-byte `ek`
(which passes both checks), a 32-byte zero message draw, trivial primitives. -/
theorem encaps_invalid_iff_witness :
    (∀ x ∈ (List.replicate 800 0 : List Nat), x < 256) ∧
    ((mlkem_encaps zeroPrimitives p512 (List.replicate 800 0) (List.replicate 32 0) =
        Except.error (RtError.kem KemError.invalidInput) ↔
      ((List.replicate 800 0 : List Nat).length ≠ 384 * p512.k + 32 ∨
        reencodeEk p512 (List.replicate 800 0) ≠
          (List.replicate 800 0 : List Nat).take (384 * p512.k))) ∧
    ((List.replicate 800 0 : List Nat).length = 384 * p512.k + 32 →
      reencodeEk p512 (List.replicate 800 0) =
        (List.replicate 800 0 : List Nat).take (384 * p512.k) →
      mlkem_encaps zeroPrimitives p512 (List.replicate 800 0) (List.replicate 32 0) =
        Except.ok ((derive_keys zeroPrimitives (List.replicate 32 0)
            (hash_to_slice zeroPrimitives (List.replicate 800 0) 32)).1,
          k_pke_encrypt_core zeroPrimitives p512 (List.replicate 800 0)
            (List.replicate 32 0)
            (derive_keys zeroPrimitives (List.replicate 32 0)
              (hash_to_slice zeroPrimitives (List.replicate 800 0) 32)).2) ∧
      (derive_keys zeroPrimitives (List.replicate 32 0)
        (hash_to_slice zeroPrimitives (List.replicate 800 0) 32)).1.length = 32)) :=
  ⟨fun x hx => by
      rw [List.eq_of_mem_replicate hx]
      omega,
    encaps_invalid_iff zeroPrimitives p512 (List.replicate 800 0) (List.replicate 32 0)
      (fun x hx => by
        rw [List.eq_of_mem_replicate hx]
        omega)⟩

/-- Witness for `byte_decode_12_isOk_iff` at the all-zero 384-byte input. -/
theorem byte_decode_12_isOk_iff_witness :
    (∀ x ∈ List.replicate 384 0, x < 256) ∧
      ((byte_decode_12 (List.replicate 384 0)).isOk = true ↔
        (List.replicate 384 0).length = 384) :=
  ⟨fun x hx => by
      rw [List.eq_of_mem_replicate hx]
      omega,
    byte_decode_12_isOk_iff (List.replicate 384 0)
      (fun x hx => by
        rw [List.eq_of_mem_replicate hx]
        omega)⟩

/-- **C9**: for every ring element `f` whose 256 coefficients all lie in `[0, q)`,
`NttElement::ntt_inv` applied to `NttElement::ntt f` (including the final
multiplication of every coefficient by `3303 = 128⁻¹ mod q`) returns `f`
unchanged. -/
theorem ntt_roundtrip (f : List Nat) (hf : f.length = 256) (hb : ∀ x ∈ f, x < 3329) :
    ntt_inv (ntt f) = f := by
  have hflen : f.length = 2 ^ (7 + 1) := by
    rw [hf]
    norm_num
  rw [ntt_eq_fwdRec f hf hb]
  rw [ntt_inv_loop_eq_invRec _ (by rw [fwdRec_length 7 1 f hflen]; norm_num)
    (fwdRec_bound 7 1 f hb)]
  rw [invRec_fwdRec 7 (by omega) 1 (by norm_num) (by norm_num) f hflen hb]
  rw [List.map_map]
  conv_rhs => rw [← List.map_id f]
  refine List.map_congr_left (fun a ha => ?_)
  have ha' : a < 3329 := hb a ha
  show fmul (a * 2 ^ 7 % 3329) 3303 = a
  rw [fmul_eq _ _ (Nat.mod_lt _ (by omega)) (by omega)]
  rw [Nat.mod_mul_mod, Nat.mul_assoc, Nat.mul_mod,
    show (2 ^ 7 * 3303) % 3329 = 1 from by norm_num, Nat.mul_one,
    Nat.mod_eq_of_lt ha', Nat.mod_eq_of_lt ha']

/-- Witness for `ntt_roundtrip` at `f = [0, 1, …, 255]`. -/
theorem ntt_roundtrip_witness :
    (List.range 256).length = 256 ∧ (∀ x ∈ List.range 256, x < 3329) ∧
      ntt_inv (ntt (List.range 256)) = List.range 256 :=
  ⟨List.length_range 256,
    fun x hx => Nat.lt_trans (List.mem_range.mp hx) (by omega),
    ntt_roundtrip (List.range 256) (List.length_range 256)
      (fun x hx => Nat.lt_trans (List.mem_range.mp hx) (by omega))⟩

end CapyKEM
